import Mathlib

set_option maxRecDepth 8192

/-
Verification of the SMT in-memory node store (MemDb) and the SMT bulk
mutation operations (SetStorage, SetContractStorage, SetAccountBalance)
of the zkEVM state commitment engine.

The Go source under verification is the db package (MemDb) and the smt
package (SetStorage and friends).  Functions of this repository that are
not part of the provided sources (the smt utils package: hashing, key
derivation, serialisation, and the tree engine InsertKA / InsertBatch /
InsertStorage) are modelled from the specification; each such definition
carries a doc comment starting with "Modelled from the spec:".
-/

/-! ## Base types

A node key is four 64-bit limbs in little-endian limb order; 8- and
12-limb node values are lists of limbs; byte strings are lists of byte
values.  Go uint64 arithmetic never overflows in the modelled code paths
(values are moved, not computed with), so limbs are plain naturals with
explicit bounds where they matter. -/

abbrev NodeKey := Nat × Nat × Nat × Nat

abbrev NodeValue8 := List Nat

abbrev NodeValue12 := List Nat

abbrev Bytes := List Nat

/-- The key-source blob. The Go source stores `utils.EncodeKeySource(kind,
address, storagePosition)`, an opaque byte blob. Modelled from the spec:
"an opaque blob encoding (leaf_kind, address, storage_slot)"; the blob is
modelled as the triple itself. -/
abbrev KeySourceVal := Nat × Nat × Nat

/-- Account addresses (20-byte values), modelled as naturals. -/
abbrev Addr := Nat

/-! ## Association list helpers modelling Go maps -/

/-- Lookup in an association list modelling a Go map. -/
def alLookup {α β : Type} [DecidableEq α] (k : α) : List (α × β) → Option β
  | [] => none
  | (k₁, v) :: m => if k₁ = k then some v else alLookup k m

/-- Go map deletion `delete(m, k)`. -/
def alErase {α β : Type} [DecidableEq α] (k : α) (m : List (α × β)) :
    List (α × β) :=
  m.filter (fun p => p.1 ≠ k)

/-- Go map assignment `m[k] = v`. -/
def alInsert {α β : Type} [DecidableEq α] (k : α) (v : β) (m : List (α × β)) :
    List (α × β) :=
  (k, v) :: alErase k m

theorem alLookup_insert {α β : Type} [DecidableEq α] (k : α) (v : β)
    (m : List (α × β)) : alLookup k (alInsert k v m) = some v := by
  simp [alInsert, alLookup]

theorem alLookup_erase_ne {α β : Type} [DecidableEq α] {k k₁ : α}
    (m : List (α × β)) (h : k₁ ≠ k) :
    alLookup k (alErase k₁ m) = alLookup k m := by
  induction m with
  | nil => rfl
  | cons p m ih =>
    cases p with
    | mk a b =>
      by_cases ha : a = k₁
      · have hak : a ≠ k := fun hc => h (ha ▸ hc)
        rw [show alErase k₁ ((a, b) :: m) = alErase k₁ m by
          simp [alErase, List.filter_cons, ha]]
        rw [ih, show alLookup k ((a, b) :: m) = alLookup k m by
          simp [alLookup, hak]]
      · rw [show alErase k₁ ((a, b) :: m) = (a, b) :: alErase k₁ m by
          simp [alErase, List.filter_cons, ha]]
        show (if a = k then some b else alLookup k (alErase k₁ m)) = _
        rw [ih]; rfl

theorem alLookup_insert_ne {α β : Type} [DecidableEq α] {k k₁ : α} (v : β)
    (m : List (α × β)) (h : k₁ ≠ k) :
    alLookup k (alInsert k₁ v m) = alLookup k m := by
  show (if k₁ = k then some v else alLookup k (alErase k₁ m)) = _
  rw [if_neg h, alLookup_erase_ne m h]

theorem alLookup_erase {α β : Type} [DecidableEq α] (k : α)
    (m : List (α × β)) : alLookup k (alErase k m) = none := by
  induction m with
  | nil => rfl
  | cons p m ih =>
    cases p with
    | mk a b =>
      by_cases hak : a = k
      · rw [show alErase k ((a, b) :: m) = alErase k m by
          simp [alErase, List.filter_cons, hak]]
        exact ih
      · rw [show alErase k ((a, b) :: m) = (a, b) :: alErase k m by
          simp [alErase, List.filter_cons, hak]]
        show (if a = k then some b else alLookup k (alErase k m)) = none
        rw [if_neg hak]; exact ih

/-! ## Spec-modelled scalar and byte conversions (smt utils package) -/

/-- Modelled from the spec: `utils.ScalarToArray` is missing from the
sources; section 4.1 specifies the little-endian 64-bit limb split
`scalar_to_array(x) -> [u64;4]`. -/
def scalarToArray (x : Nat) : List Nat :=
  [x % 2 ^ 64, x / 2 ^ 64 % 2 ^ 64, x / 2 ^ 128 % 2 ^ 64, x / 2 ^ 192 % 2 ^ 64]

/-- Modelled from the spec: `utils.ArrayToScalar` is missing from the
sources; section 4.1 specifies it as the inverse of the limb split, so the
scalar is the limb list evaluated in base `2^64`, limb 0 least
significant. -/
def arrayToScalar (a : List Nat) : Nat :=
  a.foldr (fun limb acc => acc * 2 ^ 64 + limb) 0

/-- Modelled from the spec: `utils.ArrayToBytes` is missing from the
sources.  Section 6 describes the hash-key record as the 32-byte encoding
of the key whose four 64-bit limbs are in little-endian limb order
(section 3); Go big integers serialise big-endian, so the record is the
big-endian byte string of `arrayToScalar`, left-padded with zeroes to 32
bytes. -/
def ArrayToBytes (a : List Nat) : Bytes :=
  let ds := (Nat.digits 256 (arrayToScalar a)).reverse
  List.replicate (32 - ds.length) 0 ++ ds

/-- Big-endian byte-string decoding, the semantics of Go
`big.Int.SetBytes` used by `MemDb.GetHashKey`. -/
def setBytesBE (bs : Bytes) : Nat :=
  bs.foldl (fun acc b => acc * 256 + b) 0

/-- Modelled from the spec: `utils.ScalarToArrayBig` (the `scalar_to_8`
split of section 4.1) is missing from the sources: eight 32-bit lanes,
each lane in the low 32 bits of a field element.  Section 4.1 defines the
split on 256-bit unsigned scalars; negative inputs do not occur in the
verified code paths, and are mapped through `Int.toNat`. -/
def scalar8 (x : Nat) : List Nat :=
  [x % 2 ^ 32, x / 2 ^ 32 % 2 ^ 32, x / 2 ^ 64 % 2 ^ 32, x / 2 ^ 96 % 2 ^ 32,
    x / 2 ^ 128 % 2 ^ 32, x / 2 ^ 160 % 2 ^ 32, x / 2 ^ 192 % 2 ^ 32,
    x / 2 ^ 224 % 2 ^ 32]

def scalarToArrayBig (x : Int) : List Nat :=
  scalar8 x.toNat

/-- Recomposition of the eight 32-bit lanes into the scalar (base `2^32`,
lane 0 least significant). -/
def lanesToScalar (l : List Nat) : Nat :=
  l.foldr (fun lane acc => acc * 2 ^ 32 + lane) 0

/-- The Goldilocks prime `p = 2^64 - 2^32 + 1` (spec section 4.1). -/
def goldilocksP : Nat := 2 ^ 64 - 2 ^ 32 + 1

/-- Modelled from the spec: `utils.NodeValue8FromBigIntArray` is missing
from the sources; it packages eight field elements, failing when the
array is not eight elements of the Goldilocks field. -/
def nodeValue8FromBigIntArray (l : List Nat) : Except String NodeValue8 :=
  if l.length = 8 ∧ l.all (fun e => e < goldilocksP) then .ok l
  else .error "invalid node value 8"

/-- Modelled from the spec: `utils.NodeValue8FromBigInt` is the
`scalar_to_8` split followed by `nodeValue8FromBigIntArray`.  A `none`
scalar models the Go nil big-integer produced by a failed string parse;
the Go code would dereference it and abort, modelled as an error. -/
def nodeValue8FromBigInt (v : Option Int) : Except String NodeValue8 :=
  match v with
  | none => .error "nil scalar"
  | some x => nodeValue8FromBigIntArray (scalarToArrayBig x)

/-- `NodeValue8.IsZero`: all eight limbs are zero. -/
def nvIsZero (l : NodeValue8) : Bool :=
  l.all (fun e => e = 0)

/-- Modelled from the spec: `utils.BranchCapacity`, the BRANCH_CAP 4-limb
domain tag of section 4.1 (all-zero capacity in the reference). -/
def BranchCapacity : List Nat := [0, 0, 0, 0]

/-- Modelled from the spec: `utils.LeafCapacity`, the LEAF_CAP 4-limb
domain tag of section 4.1 (ones in the designated limbs per the
reference); only its distinctness from `BranchCapacity` matters here. -/
def LeafCapacity : List Nat := [1, 0, 0, 0]

/-! ## Hex encoding (Go encoding/hex) -/

/-- The lowercase hex digit character of a value below 16. -/
def hexDigitChar (n : Nat) : Char :=
  if n < 10 then Char.ofNat ('0'.toNat + n) else Char.ofNat ('a'.toNat + n - 10)

/-- Two lowercase hex characters of one byte (Go `hex.EncodeToString`
semantics, per byte). -/
def byteToHex (b : Nat) : List Char :=
  [hexDigitChar (b / 16 % 16), hexDigitChar (b % 16)]

/-- Go `hex.EncodeToString`: lowercase hex string of a byte string. -/
def hexEncode (bs : Bytes) : String :=
  String.mk (bs.flatMap byteToHex)

/-- Modelled from the spec:
`utils.ResizeHashTo32BytesByPrefixingWithZeroes` is missing from the
sources; per its call site and section 6 ("left-zero-padded if shorter")
it left-pads a byte string with zeroes to 32 bytes. -/
def resizeHashTo32 (bs : Bytes) : Bytes :=
  List.replicate (32 - bs.length) 0 ++ bs

/-! ## String-to-scalar parsing (convertStringToBigInt) -/

/-- Value of one character as a digit in the given base, Go
`big.Int.SetString` semantics for bases 10 and 16. -/
def digitVal (base : Nat) (c : Char) : Option Nat :=
  let v : Nat :=
    if '0' ≤ c ∧ c ≤ '9' then c.toNat - '0'.toNat
    else if 'a' ≤ c ∧ c ≤ 'z' then c.toNat - 'a'.toNat + 10
    else if 'A' ≤ c ∧ c ≤ 'Z' then c.toNat - 'A'.toNat + 10
    else 99
  if v < base then some v else none

def parseDigits (base : Nat) : List Char → Nat → Option Nat
  | [], acc => some acc
  | c :: cs, acc =>
    match digitVal base c with
    | none => none
    | some d => parseDigits base cs (acc * base + d)

/-- Go `big.Int.SetString` for a fixed base 10 or 16: an optional sign
followed by a non-empty run of digits of the base. -/
def setStringChars (cs : List Char) (base : Nat) : Option Int :=
  match cs with
  | [] => none
  | '-' :: cs =>
    if cs = [] then none
    else (parseDigits base cs 0).map (fun n => -(n : Int))
  | '+' :: cs =>
    if cs = [] then none
    else (parseDigits base cs 0).map (fun n => (n : Int))
  | cs => (parseDigits base cs 0).map (fun n => (n : Int))

/-- `convertStringToBigInt` from the smt package: strings with a `0x`
prefix (checked and stripped on the character list) parse as base-16,
anything else as base-10; a failed parse yields the Go nil big integer,
modelled as `none`. -/
def convertStringToBigInt (v : String) : Option Int :=
  match v.toList with
  | '0' :: 'x' :: rest => setStringChars rest 16
  | cs => setStringChars cs 10

/-! ## The in-memory node store (MemDb) -/

/-- `ErrNotFound` of the db package. -/
def ErrNotFound : String := "key not found"

/-- The MemDb store.  The Go struct keys its maps by the hex serialisation
`utils.ConvertArrayToHex(key)` of the 4-limb key and stores node limbs as
hex strings via `utils.ConvertUint64ToHex`; those utils functions are
missing from the sources and are injective serialisations (modelled from
the spec: the node map is "keyed by hash"), so the maps are modelled as
keyed by the limbs directly, with limb values stored directly. -/
structure MemDb where
  Db : List (NodeKey × NodeValue12)
  DbAccVal : List (NodeKey × NodeValue8)
  DbKeySource : List (NodeKey × KeySourceVal)
  DbHashKey : List (NodeKey × Bytes)
  DbCode : List (String × Bytes)
  LastRoot : Int
  Depth : Nat
deriving DecidableEq

/-- `NewMemDb`. -/
def MemDb.new : MemDb :=
  { Db := [], DbAccVal := [], DbKeySource := [], DbHashKey := [],
    DbCode := [], LastRoot := 0, Depth := 0 }

/-- `MemDb.Get`: reads the stored limb strings into a zero-initialised
12-limb value; an absent key leaves the loop body unvisited, returning
the all-zero value with a nil error. -/
def MemDb.get (m : MemDb) (key : NodeKey) : Except String NodeValue12 :=
  let stored := (alLookup key m.Db).getD []
  .ok ((List.range 12).map (fun i => stored.getD i 0))

/-- `MemDb.Insert`. -/
def MemDb.insert (m : MemDb) (key : NodeKey) (value : NodeValue12) : MemDb :=
  { m with Db := alInsert key value m.Db }

/-- `MemDb.InsertKeySource`. -/
def MemDb.insertKeySource (m : MemDb) (key : NodeKey) (value : KeySourceVal) :
    MemDb :=
  { m with DbKeySource := alInsert key value m.DbKeySource }

/-- `MemDb.DeleteKeySource`. -/
def MemDb.deleteKeySource (m : MemDb) (key : NodeKey) : MemDb :=
  { m with DbKeySource := alErase key m.DbKeySource }

/-- `MemDb.GetKeySource`: fails with `ErrNotFound` when absent. -/
def MemDb.getKeySource (m : MemDb) (key : NodeKey) :
    Except String KeySourceVal :=
  match alLookup key m.DbKeySource with
  | none => .error ErrNotFound
  | some s => .ok s

/-- `MemDb.InsertHashKey`: stores `utils.ArrayToBytes(value)`. -/
def MemDb.insertHashKey (m : MemDb) (key : NodeKey) (value : NodeKey) :
    MemDb :=
  let valBytes := ArrayToBytes [value.1, value.2.1, value.2.2.1, value.2.2.2]
  { m with DbHashKey := alInsert key valBytes m.DbHashKey }

/-- `MemDb.GetHashKey`: fails with `ErrNotFound` when absent; otherwise
decodes the stored bytes with `big.Int.SetBytes` and splits the scalar
with `utils.ScalarToArray`. -/
def MemDb.getHashKey (m : MemDb) (key : NodeKey) : Except String NodeKey :=
  match alLookup key m.DbHashKey with
  | none => .error ErrNotFound
  | some s =>
    let na := scalarToArray (setBytesBE s)
    .ok (na.getD 0 0, na.getD 1 0, na.getD 2 0, na.getD 3 0)

/-- Modelled from the spec: `utils.HashContractBytecode` is missing from
the sources; per sections 3 and 6 the code map key is the 32-byte hash of
the code ("keyed by a 32-byte big-endian keccak hash"), rendered as the
`0x`-prefixed lowercase hex string the Go code stores under.  The hash
primitive itself is a parameter `bh`. -/
def hashContractBytecodeKey (bh : Bytes → Bytes) (code : Bytes) : String :=
  "0x" ++ hexEncode (bh code)

/-- `MemDb.AddCode`: stores the code under the hash-derived hex key. -/
def MemDb.addCode (bh : Bytes → Bytes) (m : MemDb) (code : Bytes) : MemDb :=
  { m with DbCode := alInsert (hashContractBytecodeKey bh code) code m.DbCode }

/-- `MemDb.GetCode`: resizes the queried hash to 32 bytes by prefixing
zeroes, then looks up the `0x`-prefixed hex string; fails with
`ErrNotFound` when absent. -/
def MemDb.getCode (m : MemDb) (codeHash : Bytes) : Except String Bytes :=
  match alLookup ("0x" ++ hexEncode (resizeHashTo32 codeHash)) m.DbCode with
  | none => .error ErrNotFound
  | some s => .ok s

/-! ## calcHashVal and the SetContractStorage hashing fan-out

The hash primitive `utils.Hash` (the Poseidon-like Goldilocks
permutation) is repository code missing from the sources.  Modelled from
the spec: it is a deterministic function of the input limbs and the
4-limb capacity (section 4.1); the claims about `SetContractStorage`
depend only on that determinism, so it is passed as a parameter `H`. -/

abbrev HashFn := List Nat → List Nat → List Nat

/-- `calcHashVal` of the smt package: parse the value string, split it
into eight 32-bit lanes, and hash the lanes with the BRANCH_CAP domain
tag. -/
def calcHashVal (H : HashFn) (v : String) :
    Except String (NodeValue8 × List Nat) :=
  match nodeValue8FromBigInt (convertStringToBigInt v) with
  | .error e => .error e
  | .ok value => .ok (value, H value BranchCapacity)

/-- One entry of the slot-to-limbs / slot-to-hash tables built by
`SetContractStorage`: slot key, 8-limb value, 4-limb value hash. -/
abbrev HashTriple := String × NodeValue8 × List Nat

/-- Go map read `storage[k]`, yielding the zero value `""` when the key
is absent. -/
def strLookup (storage : List (String × String)) (k : String) : String :=
  (alLookup k storage).getD ""

/-- The sequential branch of `SetContractStorage` (storage maps of at
most 100 entries): walk the key list, skip empty values, and collect the
`calcHashVal` results, stopping at the first error. -/
def seqCollect (H : HashFn) (storage : List (String × String)) :
    List String → Except String (List HashTriple)
  | [] => .ok []
  | k :: rest =>
    let v := strLookup storage k
    if v = "" then seqCollect H storage rest
    else
      match calcHashVal H v with
      | .error e => .error e
      | .ok ch =>
        match seqCollect H storage rest with
        | .error e => .error e
        | .ok ts => .ok ((k, ch) :: ts)

/-- The loop body of worker `cpuI` in the parallel branch: indices
`j = cpuI, cpuI + cpuNum, ...` below `storageKeyCount`, skipping empty
values; the buffer writes at consecutive positions `0, 1, ...` are
represented by the collected list.  `fuel` bounds the iteration count;
the callers pass `fuel = n`, which is exact when `0 < c` since `j` grows
by `c` every step. -/
def workerCollect (H : HashFn) (storage : List (String × String))
    (keys : List String) (n c : Nat) : Nat → Nat → Except String (List HashTriple)
  | 0, _ => .ok []
  | fuel + 1, j =>
    if j < n then
      let k := keys.getD j ""
      let v := strLookup storage k
      if v = "" then workerCollect H storage keys n c fuel (j + c)
      else
        match calcHashVal H v with
        | .error e => .error e
        | .ok ch =>
          match workerCollect H storage keys n c fuel (j + c) with
          | .error e => .error e
          | .ok ts => .ok ((k, ch) :: ts)
    else .ok []

/-- `operationsPerCpu` of the parallel branch: the per-CPU output buffer
size `storageKeyCount/cpuNum + storageKeyCount%cpuNum`. -/
def operationsPerCpu (n c : Nat) : Nat :=
  n / c + n % c

/-- The merge loop over one worker buffer: the buffer is the written
prefix padded with default entries (empty key sentinel) to
`operationsPerCpu`, and entries whose key is `""` are skipped. -/
def mergeBuffer (w : List HashTriple) (size : Nat) : List HashTriple :=
  (w ++ List.replicate (size - w.length) ("", [], [])).filter
    (fun t => t.1 ≠ "")

/-- The parallel branch: run every worker, propagate the first error,
and merge the buffers in worker order. -/
def parWorkers (H : HashFn) (storage : List (String × String))
    (keys : List String) (n c : Nat) : List Nat → Except String (List HashTriple)
  | [] => .ok []
  | i :: is =>
    match workerCollect H storage keys n c n i with
    | .error e => .error e
    | .ok w =>
      match parWorkers H storage keys n c is with
      | .error e => .error e
      | .ok rest => .ok (mergeBuffer w (operationsPerCpu n c) ++ rest)

/-- The table-building phase of `SetContractStorage`, before the serial
insert loop: the parallel branch is taken when the storage map has more
than 100 entries, with `c` workers (`parallel.DefaultNumGoroutines()`,
environment-dependent, passed as a parameter); otherwise the sequential
branch runs. -/
def setContractStorageTriples (H : HashFn) (c : Nat)
    (storage : List (String × String)) : Except String (List HashTriple) :=
  let keys := storage.map Prod.fst
  let n := keys.length
  if 100 < n then parWorkers H storage keys n c (List.range c)
  else seqCollect H storage keys

/-- The slot-to-8-limb-value map `chm` built from the collected
triples. -/
def chmOf (ts : List HashTriple) : List (String × NodeValue8) :=
  ts.foldl (fun m t => alInsert t.1 t.2.1 m) []

/-- The slot-to-value-hash map `vhm` built from the collected triples. -/
def vhmOf (ts : List HashTriple) : List (String × List Nat) :=
  ts.foldl (fun m t => alInsert t.1 t.2.2 m) []

/-! ## SetStorage -/

/-- An Ethereum account as consumed by `SetStorage`: a 256-bit balance
and a 64-bit nonce. -/
structure Account where
  Balance : Nat
  Nonce : Nat
deriving DecidableEq

/-- Key-source kind constants of the smt utils package (missing from the
sources).  Modelled from the spec: section 3 fixes the leaf kinds
BALANCE=0, NONCE=1, CODE=2, STORAGE=3, LENGTH=4. -/
def KEY_BALANCE : Nat := 0

def KEY_NONCE : Nat := 1

def SC_CODE : Nat := 2

def SC_STORAGE : Nat := 3

def SC_LENGTH : Nat := 4

/-- Modelled from the spec: `utils.EncodeKeySource` is missing from the
sources; it encodes `(kind, address, storage position)` into an opaque
blob, modelled as the triple itself. -/
def encodeKeySource (kind : Nat) (addr : Addr) (storagePosition : Nat) :
    KeySourceVal :=
  (kind, addr, storagePosition)

/-- The store operations `SetStorage` can perform, recorded as a trace:
key-source insertion, key-source deletion, and the final tree
`InsertBatch`. -/
inductive SmtOp where
  | insKS : NodeKey → KeySourceVal → SmtOp
  | delKS : NodeKey → SmtOp
  | batch : List NodeKey → List NodeValue8 → SmtOp
deriving DecidableEq

/-- Modelled from the spec: the key-derivation and tree-engine entry
points used by `SetStorage` and `SetAccountBalance` are repository code
missing from the sources (utils key derivation, section 4.2, and the
tree engine, section 4.4); they are collected as parameters.
`insertBatch` returns its result together with the store it leaves
behind; `insertKA` is the single tree insert used by
`SetAccountBalance`, returning the new root. -/
structure Env where
  keyBalance : Addr → NodeKey
  keyNonce : Addr → NodeKey
  keyContractCode : Addr → NodeKey
  keyContractLength : Addr → NodeKey
  keyContractStorage : Addr → String → Option NodeKey
  hashBytecode : String → Int
  strValToNat : String → Nat
  insertBatch : MemDb → List NodeKey → List NodeValue8 →
    Except String Unit × MemDb
  insertKA : MemDb → NodeKey → Int → Except String (MemDb × Int)

/-- `appendToValuesBatchStorageBigInt`: encode the scalar as an 8-limb
value, append it, and report whether it is the zero sentinel
(`nodeValue.IsZero()`). -/
def appendToValuesBatchStorageBigInt (vals : List NodeValue8)
    (value : Option Int) : Except String (List NodeValue8 × Bool) :=
  match nodeValue8FromBigInt value with
  | .error e => .error e
  | .ok nodeValue => .ok (vals ++ [nodeValue], nvIsZero nodeValue)

/-- The per-entry step repeated five times inside `SetStorage` (balance,
nonce, contract code, contract length, storage slot): append the encoded
value, then either write the key-source (non-zero value) or delete it
(zero value). -/
def setStorageEntry (s : MemDb) (key : NodeKey) (value : Option Int)
    (ks : KeySourceVal) (vals : List NodeValue8) :
    Except String (MemDb × List NodeValue8 × List SmtOp) :=
  match appendToValuesBatchStorageBigInt vals value with
  | .error e => .error e
  | .ok (vals2, isDelete) =>
    if isDelete then .ok (s.deleteKeySource key, vals2, [.delKS key])
    else .ok (s.insertKeySource key ks, vals2, [.insKS key ks])

/-- The Go cancellation error `fmt.Errorf("[%s] Context done",
logPrefix)`. -/
def ctxDoneMsg (lp : String) : String :=
  "[" ++ lp ++ "] Context done"

/-- Modelled from the spec: section 7 names the error `ErrCancelled` for
aborted long operations; the provided sources define no such error. -/
def ErrCancelled : String := "ErrCancelled"

/-- Intermediate output of each `SetStorage` loop: optional error, count
of performed cancellation checks, current store, accumulated key and
value batches, and the operation trace. -/
structure LoopOut where
  err : Option String
  n : Nat
  s : MemDb
  keys : List NodeKey
  vals : List NodeValue8
  ops : List SmtOp

/-- The account-changes loop of `SetStorage`: one cancellation check per
account, then the balance entry and the nonce entry; a nil account
writes zero balance and zero nonce. -/
def procAcc (env : Env) (ctx : Nat → Bool) (lp : String) :
    List (Addr × Option Account) → Nat → MemDb → List NodeKey →
    List NodeValue8 → List SmtOp → LoopOut
  | [], n, s, ks, vs, ops => ⟨none, n, s, ks, vs, ops⟩
  | (addr, acc) :: rest, n, s, ks, vs, ops =>
    if ctx n then ⟨some (ctxDoneMsg lp), n, s, ks, vs, ops⟩
    else
      let keyBalance := env.keyBalance addr
      let keyNonce := env.keyNonce addr
      let balance : Int := match acc with | some a => (a.Balance : Int) | none => 0
      let nonce : Int := match acc with | some a => (a.Nonce : Int) | none => 0
      match setStorageEntry s keyBalance (some balance)
          (encodeKeySource KEY_BALANCE addr 0) vs with
      | .error e => ⟨some e, n + 1, s, ks, vs, ops⟩
      | .ok (s1, vs1, ops1) =>
        match setStorageEntry s1 keyNonce (some nonce)
            (encodeKeySource KEY_NONCE addr 0) vs1 with
        | .error e => ⟨some e, n + 1, s1, ks, vs1, ops ++ ops1⟩
        | .ok (s2, vs2, ops2) =>
          procAcc env ctx lp rest (n + 1) s2 (ks ++ [keyBalance, keyNonce])
            vs2 (ops ++ ops1 ++ ops2)

/-- `convertBytecodeToBigInt`: the bytecode hash scalar and the byte
length of the hex string (odd-length strings are left-padded with one
zero digit); empty bytecode yields zero hash and zero length.  The Go
error result is always nil. -/
def convertBytecodeToBigInt (env : Env) (bytecode : String) : Int × Nat :=
  let bi := env.hashBytecode bytecode
  let parsed := if bytecode.startsWith "0x" then bytecode.drop 2 else bytecode
  let parsed := if parsed.length % 2 ≠ 0 then "0" ++ parsed else parsed
  let bytecodeLength := parsed.length / 2
  if bytecode.length = 0 then (0, 0) else (bi, bytecodeLength)

/-- The code-changes loop of `SetStorage`: one cancellation check per
contract, then the contract-code entry and the contract-length entry. -/
def procCode (env : Env) (ctx : Nat → Bool) (lp : String) :
    List (Addr × String) → Nat → MemDb → List NodeKey → List NodeValue8 →
    List SmtOp → LoopOut
  | [], n, s, ks, vs, ops => ⟨none, n, s, ks, vs, ops⟩
  | (addr, code) :: rest, n, s, ks, vs, ops =>
    if ctx n then ⟨some (ctxDoneMsg lp), n, s, ks, vs, ops⟩
    else
      let keyContractCode := env.keyContractCode addr
      let keyContractLength := env.keyContractLength addr
      let bihl := convertBytecodeToBigInt env code
      match setStorageEntry s keyContractCode (some bihl.1)
          (encodeKeySource SC_CODE addr 0) vs with
      | .error e => ⟨some e, n + 1, s, ks, vs, ops⟩
      | .ok (s1, vs1, ops1) =>
        match setStorageEntry s1 keyContractLength (some (bihl.2 : Int))
            (encodeKeySource SC_LENGTH addr 0) vs1 with
        | .error e => ⟨some e, n + 1, s1, ks, vs1, ops ++ ops1⟩
        | .ok (s2, vs2, ops2) =>
          procCode env ctx lp rest (n + 1) s2
            (ks ++ [keyContractCode, keyContractLength]) vs2 (ops ++ ops1 ++ ops2)

/-- The inner loop over one storage map: no cancellation check; per slot,
derive the storage key (its derivation can fail), parse the value
string, and run the entry step with the slot position recorded in the
key source. -/
def procStorInner (env : Env) (addr : Addr) :
    List (String × String) → MemDb → List NodeKey → List NodeValue8 →
    List SmtOp → Except String (MemDb × List NodeKey × List NodeValue8 × List SmtOp)
  | [], s, ks, vs, ops => .ok (s, ks, vs, ops)
  | (k, v) :: rest, s, ks, vs, ops =>
    match env.keyContractStorage addr k with
    | none => .error "KeyContractStorage failed"
    | some keyStoragePosition =>
      let valueBigInt := convertStringToBigInt v
      match setStorageEntry s keyStoragePosition valueBigInt
          (encodeKeySource SC_STORAGE addr (env.strValToNat k)) vs with
      | .error e => .error e
      | .ok (s1, vs1, ops1) =>
        procStorInner env addr rest s1 (ks ++ [keyStoragePosition]) vs1
          (ops ++ ops1)

/-- The storage-changes loop of `SetStorage`: one cancellation check per
address, then the inner loop over that address's storage map. -/
def procStor (env : Env) (ctx : Nat → Bool) (lp : String) :
    List (Addr × List (String × String)) → Nat → MemDb → List NodeKey →
    List NodeValue8 → List SmtOp → LoopOut
  | [], n, s, ks, vs, ops => ⟨none, n, s, ks, vs, ops⟩
  | (addr, storage) :: rest, n, s, ks, vs, ops =>
    if ctx n then ⟨some (ctxDoneMsg lp), n, s, ks, vs, ops⟩
    else
      match procStorInner env addr storage s ks vs ops with
      | .error e => ⟨some e, n + 1, s, ks, vs, ops⟩
      | .ok (s1, ks1, vs1, ops1) =>
        procStor env ctx lp rest (n + 1) s1 ks1 vs1 ops1

/-- `SetStorage`: early return when all three change maps are empty;
otherwise the account, code, and storage loops accumulate the key and
value batches and the key-source writes, and the single `InsertBatch`
call at the end mutates the tree.  The result carries the final store
and the operation trace. -/
def SetStorage (env : Env) (ctx : Nat → Bool) (lp : String)
    (accChanges : List (Addr × Option Account))
    (codeChanges : List (Addr × String))
    (storageChanges : List (Addr × List (String × String))) (s : MemDb) :
    Except String (List NodeKey × List NodeValue8) × MemDb × List SmtOp :=
  if storageChanges.length = 0 ∧ accChanges.length = 0 ∧ codeChanges.length = 0
  then (.ok ([], []), s, [])
  else
    let r1 := procAcc env ctx lp accChanges 0 s [] [] []
    match r1.err with
    | some e => (.error e, r1.s, r1.ops)
    | none =>
      let r2 := procCode env ctx lp codeChanges r1.n r1.s r1.keys r1.vals r1.ops
      match r2.err with
      | some e => (.error e, r2.s, r2.ops)
      | none =>
        let r3 := procStor env ctx lp storageChanges r2.n r2.s r2.keys r2.vals
          r2.ops
        match r3.err with
        | some e => (.error e, r3.s, r3.ops)
        | none =>
          match env.insertBatch r3.s r3.keys r3.vals with
          | (.error e, s4) => (.error e, s4, r3.ops ++ [.batch r3.keys r3.vals])
          | (.ok _, s4) =>
            (.ok (r3.keys, r3.vals), s4, r3.ops ++ [.batch r3.keys r3.vals])

/-- `SetAccountBalance`: derive the balance key, insert through the tree
engine (`InsertKA`), then write the key-source unconditionally. -/
def SetAccountBalance (env : Env) (s : MemDb) (addr : Addr) (balance : Int) :
    Except String (MemDb × Int) :=
  let keyBalance := env.keyBalance addr
  match env.insertKA s keyBalance balance with
  | .error e => .error e
  | .ok (s1, root) =>
    .ok (s1.insertKeySource keyBalance (encodeKeySource KEY_BALANCE addr 0),
      root)

/-! ## Unfolding lemmas for the loop recursions -/

theorem procAcc_nil (env : Env) (ctx : Nat → Bool) (lp : String) (n : Nat)
    (s : MemDb) (ks : List NodeKey) (vs : List NodeValue8) (ops : List SmtOp) :
    procAcc env ctx lp [] n s ks vs ops = ⟨none, n, s, ks, vs, ops⟩ := rfl

theorem procAcc_cons (env : Env) (ctx : Nat → Bool) (lp : String) (addr : Addr)
    (acc : Option Account) (rest : List (Addr × Option Account)) (n : Nat)
    (s : MemDb) (ks : List NodeKey) (vs : List NodeValue8) (ops : List SmtOp) :
    procAcc env ctx lp ((addr, acc) :: rest) n s ks vs ops =
      if ctx n then ⟨some (ctxDoneMsg lp), n, s, ks, vs, ops⟩
      else
        match setStorageEntry s (env.keyBalance addr)
            (some (match acc with | some a => (a.Balance : Int) | none => 0))
            (encodeKeySource KEY_BALANCE addr 0) vs with
        | .error e => ⟨some e, n + 1, s, ks, vs, ops⟩
        | .ok (s1, vs1, ops1) =>
          match setStorageEntry s1 (env.keyNonce addr)
              (some (match acc with | some a => (a.Nonce : Int) | none => 0))
              (encodeKeySource KEY_NONCE addr 0) vs1 with
          | .error e => ⟨some e, n + 1, s1, ks, vs1, ops ++ ops1⟩
          | .ok (s2, vs2, ops2) =>
            procAcc env ctx lp rest (n + 1) s2
              (ks ++ [env.keyBalance addr, env.keyNonce addr]) vs2
              (ops ++ ops1 ++ ops2) := rfl

theorem procCode_nil (env : Env) (ctx : Nat → Bool) (lp : String) (n : Nat)
    (s : MemDb) (ks : List NodeKey) (vs : List NodeValue8) (ops : List SmtOp) :
    procCode env ctx lp [] n s ks vs ops = ⟨none, n, s, ks, vs, ops⟩ := rfl

theorem procCode_cons (env : Env) (ctx : Nat → Bool) (lp : String) (addr : Addr)
    (code : String) (rest : List (Addr × String)) (n : Nat) (s : MemDb)
    (ks : List NodeKey) (vs : List NodeValue8) (ops : List SmtOp) :
    procCode env ctx lp ((addr, code) :: rest) n s ks vs ops =
      if ctx n then ⟨some (ctxDoneMsg lp), n, s, ks, vs, ops⟩
      else
        match setStorageEntry s (env.keyContractCode addr)
            (some (convertBytecodeToBigInt env code).1)
            (encodeKeySource SC_CODE addr 0) vs with
        | .error e => ⟨some e, n + 1, s, ks, vs, ops⟩
        | .ok (s1, vs1, ops1) =>
          match setStorageEntry s1 (env.keyContractLength addr)
              (some ((convertBytecodeToBigInt env code).2 : Int))
              (encodeKeySource SC_LENGTH addr 0) vs1 with
          | .error e => ⟨some e, n + 1, s1, ks, vs1, ops ++ ops1⟩
          | .ok (s2, vs2, ops2) =>
            procCode env ctx lp rest (n + 1) s2
              (ks ++ [env.keyContractCode addr, env.keyContractLength addr]) vs2
              (ops ++ ops1 ++ ops2) := rfl

theorem procStorInner_nil (env : Env) (addr : Addr) (s : MemDb)
    (ks : List NodeKey) (vs : List NodeValue8) (ops : List SmtOp) :
    procStorInner env addr [] s ks vs ops = .ok (s, ks, vs, ops) := rfl

theorem procStorInner_cons (env : Env) (addr : Addr) (k v : String)
    (rest : List (String × String)) (s : MemDb) (ks : List NodeKey)
    (vs : List NodeValue8) (ops : List SmtOp) :
    procStorInner env addr ((k, v) :: rest) s ks vs ops =
      match env.keyContractStorage addr k with
      | none => .error "KeyContractStorage failed"
      | some keyStoragePosition =>
        match setStorageEntry s keyStoragePosition (convertStringToBigInt v)
            (encodeKeySource SC_STORAGE addr (env.strValToNat k)) vs with
        | .error e => .error e
        | .ok (s1, vs1, ops1) =>
          procStorInner env addr rest s1 (ks ++ [keyStoragePosition]) vs1
            (ops ++ ops1) := rfl

theorem procStor_nil (env : Env) (ctx : Nat → Bool) (lp : String) (n : Nat)
    (s : MemDb) (ks : List NodeKey) (vs : List NodeValue8) (ops : List SmtOp) :
    procStor env ctx lp [] n s ks vs ops = ⟨none, n, s, ks, vs, ops⟩ := rfl

theorem procStor_cons (env : Env) (ctx : Nat → Bool) (lp : String) (addr : Addr)
    (storage : List (String × String))
    (rest : List (Addr × List (String × String))) (n : Nat) (s : MemDb)
    (ks : List NodeKey) (vs : List NodeValue8) (ops : List SmtOp) :
    procStor env ctx lp ((addr, storage) :: rest) n s ks vs ops =
      if ctx n then ⟨some (ctxDoneMsg lp), n, s, ks, vs, ops⟩
      else
        match procStorInner env addr storage s ks vs ops with
        | .error e => ⟨some e, n + 1, s, ks, vs, ops⟩
        | .ok (s1, ks1, vs1, ops1) =>
          procStor env ctx lp rest (n + 1) s1 ks1 vs1 ops1 := rfl

/-! ## Helper lemmas: the SetStorage phases only touch the key-source map -/

/-- Equality of every store field except the key-source map: the tree
nodes, the account values, the hash-key map, the code map, the root and
the depth. -/
def nonKsEq (a b : MemDb) : Prop :=
  a.Db = b.Db ∧ a.DbAccVal = b.DbAccVal ∧ a.DbHashKey = b.DbHashKey ∧
    a.DbCode = b.DbCode ∧ a.LastRoot = b.LastRoot ∧ a.Depth = b.Depth

theorem nonKsEq_refl (a : MemDb) : nonKsEq a a :=
  ⟨rfl, rfl, rfl, rfl, rfl, rfl⟩

theorem nonKsEq_trans {a b c : MemDb} (h1 : nonKsEq a b) (h2 : nonKsEq b c) :
    nonKsEq a c :=
  ⟨h1.1.trans h2.1, h1.2.1.trans h2.2.1, h1.2.2.1.trans h2.2.2.1,
    h1.2.2.2.1.trans h2.2.2.2.1, h1.2.2.2.2.1.trans h2.2.2.2.2.1,
    h1.2.2.2.2.2.trans h2.2.2.2.2.2⟩

theorem setStorageEntry_nonKsEq {s : MemDb} {key : NodeKey} {value : Option Int}
    {ks : KeySourceVal} {vals : List NodeValue8} {s1 : MemDb}
    {vs1 : List NodeValue8} {ops1 : List SmtOp}
    (h : setStorageEntry s key value ks vals = .ok (s1, vs1, ops1)) :
    nonKsEq s1 s := by
  unfold setStorageEntry at h
  cases happ : appendToValuesBatchStorageBigInt vals value with
  | error e =>
    rw [happ] at h
    exact absurd h (by simp)
  | ok p =>
    rw [happ] at h
    obtain ⟨vals2, isDelete⟩ := p
    dsimp only at h
    by_cases hz : isDelete = true
    · rw [if_pos hz] at h
      cases h
      exact ⟨rfl, rfl, rfl, rfl, rfl, rfl⟩
    · rw [if_neg hz] at h
      cases h
      exact ⟨rfl, rfl, rfl, rfl, rfl, rfl⟩

theorem procAcc_nonKsEq (env : Env) (ctx : Nat → Bool) (lp : String)
    (l : List (Addr × Option Account)) (n : Nat) (s : MemDb)
    (ks : List NodeKey) (vs : List NodeValue8) (ops : List SmtOp) :
    nonKsEq (procAcc env ctx lp l n s ks vs ops).s s := by
  induction l generalizing n s ks vs ops with
  | nil => exact nonKsEq_refl s
  | cons p rest ih =>
    obtain ⟨addr, acc⟩ := p
    rw [procAcc_cons]
    by_cases hc : ctx n
    · rw [if_pos hc]
      exact nonKsEq_refl s
    · rw [if_neg hc]
      split
      · exact nonKsEq_refl s
      · next s1 vs1 ops1 h1 =>
        split
        · exact setStorageEntry_nonKsEq h1
        · next s2 vs2 ops2 h2 =>
          exact nonKsEq_trans
            (nonKsEq_trans (ih _ _ _ _ _) (setStorageEntry_nonKsEq h2))
            (setStorageEntry_nonKsEq h1)

theorem procCode_nonKsEq (env : Env) (ctx : Nat → Bool) (lp : String)
    (l : List (Addr × String)) (n : Nat) (s : MemDb) (ks : List NodeKey)
    (vs : List NodeValue8) (ops : List SmtOp) :
    nonKsEq (procCode env ctx lp l n s ks vs ops).s s := by
  induction l generalizing n s ks vs ops with
  | nil => exact nonKsEq_refl s
  | cons p rest ih =>
    obtain ⟨addr, code⟩ := p
    rw [procCode_cons]
    by_cases hc : ctx n
    · rw [if_pos hc]
      exact nonKsEq_refl s
    · rw [if_neg hc]
      split
      · exact nonKsEq_refl s
      · next s1 vs1 ops1 h1 =>
        split
        · exact setStorageEntry_nonKsEq h1
        · next s2 vs2 ops2 h2 =>
          exact nonKsEq_trans
            (nonKsEq_trans (ih _ _ _ _ _) (setStorageEntry_nonKsEq h2))
            (setStorageEntry_nonKsEq h1)

theorem procStorInner_nonKsEq (env : Env) (addr : Addr)
    (l : List (String × String)) (s : MemDb) (ks : List NodeKey)
    (vs : List NodeValue8) (ops : List SmtOp) {s1 : MemDb}
    {ks1 : List NodeKey} {vs1 : List NodeValue8} {ops1 : List SmtOp}
    (h : procStorInner env addr l s ks vs ops = .ok (s1, ks1, vs1, ops1)) :
    nonKsEq s1 s := by
  induction l generalizing s ks vs ops with
  | nil =>
    rw [procStorInner_nil] at h
    cases h
    exact nonKsEq_refl s1
  | cons p rest ih =>
    obtain ⟨k, v⟩ := p
    rw [procStorInner_cons] at h
    cases hk : env.keyContractStorage addr k with
    | none =>
      rw [hk] at h
      exact absurd h (by simp)
    | some keyPos =>
      rw [hk] at h
      dsimp only at h
      cases he : setStorageEntry s keyPos (convertStringToBigInt v)
          (encodeKeySource SC_STORAGE addr (env.strValToNat k)) vs with
      | error e =>
        rw [he] at h
        exact absurd h (by simp)
      | ok t =>
        obtain ⟨sa, vsa, opsa⟩ := t
        rw [he] at h
        dsimp only at h
        exact nonKsEq_trans (ih _ _ _ _ h) (setStorageEntry_nonKsEq he)

theorem procStor_nonKsEq (env : Env) (ctx : Nat → Bool) (lp : String)
    (l : List (Addr × List (String × String))) (n : Nat) (s : MemDb)
    (ks : List NodeKey) (vs : List NodeValue8) (ops : List SmtOp) :
    nonKsEq (procStor env ctx lp l n s ks vs ops).s s := by
  induction l generalizing n s ks vs ops with
  | nil => exact nonKsEq_refl s
  | cons p rest ih =>
    obtain ⟨addr, storage⟩ := p
    rw [procStor_cons]
    by_cases hc : ctx n
    · rw [if_pos hc]
      exact nonKsEq_refl s
    · rw [if_neg hc]
      split
      · exact nonKsEq_refl s
      · next s1 ks1 vs1 ops1 h1 =>
        exact nonKsEq_trans (ih _ _ _ _ _)
          (procStorInner_nonKsEq _ _ _ _ _ _ _ h1)

/-! ## Concrete environment used by witnesses -/

/-- A concrete instantiation of the modelled environment, used to
exercise the theorems on closed inputs. -/
def env0 : Env where
  keyBalance := fun a => (a, 0, 0, 0)
  keyNonce := fun a => (a, 1, 0, 0)
  keyContractCode := fun a => (a, 2, 0, 0)
  keyContractLength := fun a => (a, 4, 0, 0)
  keyContractStorage := fun a k => some (a, 3, k.length, 0)
  hashBytecode := fun c => (c.length : Int)
  strValToNat := fun k => k.length
  insertBatch := fun s _ _ => (.ok (), s)
  insertKA := fun s _ _ => .ok (s, 0)

/-! ## C10: SetStorage with three empty change maps -/

/-- C10: when the account, code and storage change maps are all empty,
`SetStorage` returns nil batches and a nil error, performs no store
operation, and leaves every field of the store unchanged. -/
theorem setStorage_empty_noop (env : Env) (ctx : Nat → Bool) (lp : String)
    (s : MemDb) : SetStorage env ctx lp [] [] [] s = (.ok ([], []), s, []) :=
  rfl

/-! ## C8: a failure before InsertBatch leaves the tree untouched -/

/-- C8: whenever `SetStorage` returns an error and its trace shows that
the single `InsertBatch` call was not reached (context cancelled, value
encoding failure, or key derivation failure), the stored tree nodes and
the last root are exactly what they were before the call: the phases
before `InsertBatch` write only key sources. -/
theorem setStorage_error_before_batch_preserves_tree (env : Env)
    (ctx : Nat → Bool) (lp : String) (accChanges : List (Addr × Option Account))
    (codeChanges : List (Addr × String))
    (storageChanges : List (Addr × List (String × String))) (s : MemDb)
    (e : String) (s2 : MemDb) (ops : List SmtOp)
    (h : SetStorage env ctx lp accChanges codeChanges storageChanges s =
      (.error e, s2, ops))
    (hnb : ∀ bk bv, SmtOp.batch bk bv ∉ ops) :
    s2.Db = s.Db ∧ s2.LastRoot = s.LastRoot := by
  unfold SetStorage at h
  by_cases hg : storageChanges.length = 0 ∧ accChanges.length = 0 ∧
      codeChanges.length = 0
  · rw [if_pos hg] at h
    simp only [Prod.mk.injEq] at h
    exact absurd h.1 (by simp)
  · rw [if_neg hg] at h
    dsimp only at h
    cases h1 : (procAcc env ctx lp accChanges 0 s [] [] []).err with
    | some e1 =>
      rw [h1] at h
      simp only [Prod.mk.injEq] at h
      rw [← h.2.1]
      have := procAcc_nonKsEq env ctx lp accChanges 0 s [] [] []
      exact ⟨this.1, this.2.2.2.2.1⟩
    | none =>
      rw [h1] at h
      dsimp only at h
      have pacc := procAcc_nonKsEq env ctx lp accChanges 0 s [] [] []
      set r1 := procAcc env ctx lp accChanges 0 s [] [] [] with hr1
      have pcode := procCode_nonKsEq env ctx lp codeChanges r1.n r1.s r1.keys
        r1.vals r1.ops
      cases h2 : (procCode env ctx lp codeChanges r1.n r1.s r1.keys r1.vals
          r1.ops).err with
      | some e2 =>
        rw [h2] at h
        simp only [Prod.mk.injEq] at h
        rw [← h.2.1]
        have := nonKsEq_trans pcode pacc
        exact ⟨this.1, this.2.2.2.2.1⟩
      | none =>
        rw [h2] at h
        dsimp only at h
        set r2 := procCode env ctx lp codeChanges r1.n r1.s r1.keys r1.vals
          r1.ops with hr2
        have pstor := procStor_nonKsEq env ctx lp storageChanges r2.n r2.s
          r2.keys r2.vals r2.ops
        cases h3 : (procStor env ctx lp storageChanges r2.n r2.s r2.keys
            r2.vals r2.ops).err with
        | some e3 =>
          rw [h3] at h
          simp only [Prod.mk.injEq] at h
          rw [← h.2.1]
          have := nonKsEq_trans (nonKsEq_trans pstor pcode) pacc
          exact ⟨this.1, this.2.2.2.2.1⟩
        | none =>
          rw [h3] at h
          dsimp only at h
          set r3 := procStor env ctx lp storageChanges r2.n r2.s r2.keys
            r2.vals r2.ops with hr3
          cases hb : env.insertBatch r3.s r3.keys r3.vals with
          | mk res s4 =>
            rw [hb] at h
            cases res with
            | error eb =>
              dsimp only at h
              simp only [Prod.mk.injEq] at h
              exact absurd (h.2.2 ▸ List.mem_append_right r3.ops
                (List.mem_singleton_self _)) (hnb r3.keys r3.vals)
            | ok u =>
              dsimp only at h
              simp only [Prod.mk.injEq] at h
              exact absurd h.1 (by simp)

/-- Closed instance of C8: a cancelled run (context done at the first
check) errors with no batch operation in its trace and leaves the tree
fields unchanged. -/
theorem setStorage_error_before_batch_preserves_tree_witness :
    (SetStorage env0 (fun _ => true) "p" [(1, none)] [] [] MemDb.new =
      (.error (ctxDoneMsg "p"), MemDb.new, []) ∧
      ∀ bk bv, SmtOp.batch bk bv ∉ ([] : List SmtOp)) ∧
    MemDb.new.Db = MemDb.new.Db ∧ MemDb.new.LastRoot = MemDb.new.LastRoot :=
  ⟨⟨rfl, by simp⟩,
    setStorage_error_before_batch_preserves_tree env0 (fun _ => true) "p"
      [(1, none)] [] [] MemDb.new (ctxDoneMsg "p") MemDb.new [] rfl (by simp)⟩

/-! ## C1: MemDb.Get on an absent key -/

/-- C1 counterexample: the node lookup `MemDb.Get` does not fail with
`ErrNotFound` on an absent hash: on the fresh store it returns the
all-zero 12-limb value with a nil error. -/
theorem memDb_get_absent_cex :
    alLookup ((1, 2, 3, 4) : NodeKey) MemDb.new.Db = none ∧
    MemDb.new.get (1, 2, 3, 4) = .ok (List.replicate 12 0) ∧
    MemDb.new.get (1, 2, 3, 4) ≠ .error ErrNotFound :=
  ⟨rfl, rfl, fun h => Except.noConfusion h⟩

/-- C1 amended: `MemDb.Get` never fails; an absent key yields the
all-zero 12-limb value, and a present key yields the stored 12-limb
record. -/
theorem memDb_get_total (s : MemDb) (k : NodeKey) :
    (alLookup k s.Db = none → s.get k = .ok (List.replicate 12 0)) ∧
    (∀ v, alLookup k s.Db = some v → v.length = 12 → s.get k = .ok v) := by
  constructor
  · intro h
    unfold MemDb.get
    rw [h]
    rfl
  · intro v h hv
    unfold MemDb.get
    rw [h]
    dsimp only [Option.getD]
    congr 1
    apply List.ext_getElem
    · simp [hv]
    · intro i h1 h2
      simp only [List.getElem_map, List.getElem_range]
      rw [List.getD_eq_getElem]

/-- Closed instance of C1 amended: after one insert, an absent key reads
as zeroes and the inserted key reads back its record. -/
theorem memDb_get_total_witness :
    (MemDb.new.insert (1, 2, 3, 4)
        [1, 2, 3, 4, 5, 6, 7, 8, 9, 10, 11, 12]).get (5, 6, 7, 8) =
      .ok (List.replicate 12 0) ∧
    (MemDb.new.insert (1, 2, 3, 4)
        [1, 2, 3, 4, 5, 6, 7, 8, 9, 10, 11, 12]).get (1, 2, 3, 4) =
      .ok [1, 2, 3, 4, 5, 6, 7, 8, 9, 10, 11, 12] :=
  ⟨(memDb_get_total _ _).1 rfl,
    (memDb_get_total _ _).2 [1, 2, 3, 4, 5, 6, 7, 8, 9, 10, 11, 12] rfl
      (by decide)⟩

/-! ## C6: the code-map round trip -/

/-- C6: after `AddCode(c)`, `GetCode` keyed by the 32-byte hash of `c`
returns `c`: the stored key is the hex rendering of the 32-byte hash,
and the query hash is left-zero-padded to 32 bytes, the identity on a
32-byte hash. -/
theorem addCode_getCode_roundtrip (bh : Bytes → Bytes) (s : MemDb)
    (code : Bytes) (h32 : (bh code).length = 32) :
    (MemDb.addCode bh s code).getCode (bh code) = .ok code := by
  unfold MemDb.getCode MemDb.addCode hashContractBytecodeKey
  have hres : resizeHashTo32 (bh code) = bh code := by
    unfold resizeHashTo32
    rw [h32]
    simp
  rw [hres, alLookup_insert]

/-- Closed instance of C6 with a concrete 32-byte hash function. -/
theorem addCode_getCode_roundtrip_witness :
    ((fun (_ : Bytes) => List.replicate 32 (0 : Nat)) [1, 2, 3]).length = 32 ∧
    (MemDb.addCode (fun _ => List.replicate 32 0) MemDb.new [1, 2, 3]).getCode
        ((fun (_ : Bytes) => List.replicate 32 (0 : Nat)) [1, 2, 3]) =
      .ok [1, 2, 3] :=
  ⟨by decide,
    addCode_getCode_roundtrip (fun _ => List.replicate 32 0) MemDb.new [1, 2, 3]
      (by decide)⟩

/-! ## C4: zero values delete key-sources; SetAccountBalance always inserts -/

/-- C4: in `SetStorage`, an entry whose encoded 8-limb value is the zero
sentinel runs the delete branch: the key-source for that tree key is
deleted (reading it afterwards finds nothing) and no key-source is
inserted; whereas `SetAccountBalance` writes a key-source via
`InsertKeySource` unconditionally once the tree insert succeeds, even
when the inserted balance is zero. -/
theorem zero_value_key_source_asymmetry :
    (∀ (s : MemDb) (key : NodeKey) (v : Option Int) (ks : KeySourceVal)
        (vals : List NodeValue8) (nv : NodeValue8),
      nodeValue8FromBigInt v = .ok nv → nvIsZero nv = true →
      setStorageEntry s key v ks vals =
        .ok (s.deleteKeySource key, vals ++ [nv], [.delKS key]) ∧
      alLookup key (s.deleteKeySource key).DbKeySource = none) ∧
    (∀ (env : Env) (s : MemDb) (addr : Addr) (balance : Int) (s1 : MemDb)
        (r : Int),
      env.insertKA s (env.keyBalance addr) balance = .ok (s1, r) →
      SetAccountBalance env s addr balance =
        .ok (s1.insertKeySource (env.keyBalance addr)
          (encodeKeySource KEY_BALANCE addr 0), r) ∧
      alLookup (env.keyBalance addr)
          (s1.insertKeySource (env.keyBalance addr)
            (encodeKeySource KEY_BALANCE addr 0)).DbKeySource =
        some (encodeKeySource KEY_BALANCE addr 0)) := by
  constructor
  · intro s key v ks vals nv hv hz
    constructor
    · unfold setStorageEntry appendToValuesBatchStorageBigInt
      rw [hv]
      dsimp only
      rw [if_pos hz]
    · exact alLookup_erase key s.DbKeySource
  · intro env s addr balance s1 r hka
    constructor
    · unfold SetAccountBalance
      dsimp only
      rw [hka]
    · exact alLookup_insert (env.keyBalance addr) _ s1.DbKeySource

/-- Closed instance of C4: the zero scalar encodes to the zero sentinel
and deletes the key-source, while `SetAccountBalance` with a zero
balance still writes one. -/
theorem zero_value_key_source_asymmetry_witness :
    (nodeValue8FromBigInt (some 0) = .ok [0, 0, 0, 0, 0, 0, 0, 0] ∧
      nvIsZero [0, 0, 0, 0, 0, 0, 0, 0] = true ∧
      env0.insertKA MemDb.new (env0.keyBalance 1) 0 = .ok (MemDb.new, 0)) ∧
    (setStorageEntry MemDb.new (9, 9, 9, 9) (some 0) (1, 2, 3) [] =
        .ok (MemDb.new.deleteKeySource (9, 9, 9, 9), [[0, 0, 0, 0, 0, 0, 0, 0]],
          [.delKS (9, 9, 9, 9)]) ∧
      alLookup ((9, 9, 9, 9) : NodeKey)
        (MemDb.new.deleteKeySource (9, 9, 9, 9)).DbKeySource = none) ∧
    (SetAccountBalance env0 MemDb.new 1 0 =
        .ok (MemDb.new.insertKeySource (env0.keyBalance 1)
          (encodeKeySource KEY_BALANCE 1 0), 0) ∧
      alLookup (env0.keyBalance 1)
          (MemDb.new.insertKeySource (env0.keyBalance 1)
            (encodeKeySource KEY_BALANCE 1 0)).DbKeySource =
        some (encodeKeySource KEY_BALANCE 1 0)) :=
  ⟨⟨rfl, by decide, rfl⟩,
    zero_value_key_source_asymmetry.1 MemDb.new (9, 9, 9, 9) (some 0) (1, 2, 3)
      [] [0, 0, 0, 0, 0, 0, 0, 0] rfl (by decide),
    zero_value_key_source_asymmetry.2 env0 MemDb.new 1 0 MemDb.new 0 rfl⟩

/-! ## C5: cancellation does not roll back and is not ErrCancelled -/

/-- The cancellation signal used by the C5 statements: done from the
second check on. -/
def ctxAfterOne : Nat → Bool := fun n => decide (1 ≤ n)

/-- The two-account change list used by the C5 counterexample; the first
account carries non-zero balance and nonce. -/
def accCex : List (Addr × Option Account) := [(1, some ⟨5, 7⟩), (2, none)]

/-- C5 counterexample: cancellation observed during `SetStorage` returns
the `Context done` error, not `ErrCancelled`, and does not leave the
store as it was: the key-source writes of the first processed account
persist (the in-memory batch interface is a no-op, nothing is rolled
back). -/
theorem setStorage_cancel_cex :
    (SetStorage env0 ctxAfterOne "p" accCex [] [] MemDb.new).1 =
      .error (ctxDoneMsg "p") ∧
    ctxDoneMsg "p" ≠ ErrCancelled ∧
    (SetStorage env0 ctxAfterOne "p" accCex [] [] MemDb.new).2.1.DbKeySource =
      [((1, 1, 0, 0), (1, 1, 0)), ((1, 0, 0, 0), (0, 1, 0))] ∧
    MemDb.new.DbKeySource = [] ∧
    ([((1, 1, 0, 0), (1, 1, 0)), ((1, 0, 0, 0), (0, 1, 0))] :
      List (NodeKey × KeySourceVal)) ≠ [] := by
  refine ⟨rfl, by decide, rfl, rfl, by decide⟩

/-- C5 amended: when `SetStorage` observes cancellation at the second
check, having processed one account with non-zero encoded balance and
nonce, it returns the `Context done` error and retains the two
key-source writes already performed; only the key-source map changes. -/
theorem setStorage_cancel_retains_writes (env : Env) (lp : String) (s : MemDb)
    (addr : Addr) (acct : Account) (nvb nvn : NodeValue8)
    (hb : nodeValue8FromBigInt (some (acct.Balance : Int)) = .ok nvb)
    (hzb : nvIsZero nvb = false)
    (hn : nodeValue8FromBigInt (some (acct.Nonce : Int)) = .ok nvn)
    (hzn : nvIsZero nvn = false)
    (r : Addr × Option Account) (rs : List (Addr × Option Account)) :
    SetStorage env ctxAfterOne lp ((addr, some acct) :: r :: rs) [] [] s =
      (.error (ctxDoneMsg lp),
        { s with DbKeySource :=
            (alInsert (env.keyNonce addr) (encodeKeySource KEY_NONCE addr 0)
              (alInsert (env.keyBalance addr)
                (encodeKeySource KEY_BALANCE addr 0) s.DbKeySource)) },
        [.insKS (env.keyBalance addr) (encodeKeySource KEY_BALANCE addr 0),
          .insKS (env.keyNonce addr) (encodeKeySource KEY_NONCE addr 0)]) := by
  obtain ⟨a2, acc2⟩ := r
  have e1 : ∀ (st : MemDb) (vs : List NodeValue8),
      setStorageEntry st (env.keyBalance addr) (some (acct.Balance : Int))
        (encodeKeySource KEY_BALANCE addr 0) vs =
      .ok (st.insertKeySource (env.keyBalance addr)
          (encodeKeySource KEY_BALANCE addr 0), vs ++ [nvb],
        [.insKS (env.keyBalance addr) (encodeKeySource KEY_BALANCE addr 0)]) := by
    intro st vs
    unfold setStorageEntry appendToValuesBatchStorageBigInt
    rw [hb]
    dsimp only
    rw [hzb, if_neg Bool.false_ne_true]
  have e2 : ∀ (st : MemDb) (vs : List NodeValue8),
      setStorageEntry st (env.keyNonce addr) (some (acct.Nonce : Int))
        (encodeKeySource KEY_NONCE addr 0) vs =
      .ok (st.insertKeySource (env.keyNonce addr)
          (encodeKeySource KEY_NONCE addr 0), vs ++ [nvn],
        [.insKS (env.keyNonce addr) (encodeKeySource KEY_NONCE addr 0)]) := by
    intro st vs
    unfold setStorageEntry appendToValuesBatchStorageBigInt
    rw [hn]
    dsimp only
    rw [hzn, if_neg Bool.false_ne_true]
  unfold SetStorage
  rw [if_neg (by simp)]
  dsimp only
  rw [procAcc_cons, show ctxAfterOne 0 = false from rfl,
    if_neg Bool.false_ne_true]
  dsimp only
  rw [e1]
  dsimp only
  rw [e2]
  dsimp only
  rw [procAcc_cons, show ctxAfterOne (0 + 1) = true from rfl, if_pos rfl]
  dsimp only
  simp [MemDb.insertKeySource]

/-- Closed instance of C5 amended: the concrete two-account cancellation
run retains the two key-source writes of the first account. -/
theorem setStorage_cancel_retains_writes_witness :
    (nodeValue8FromBigInt (some (((⟨5, 7⟩ : Account).Balance : Nat) : Int)) =
        .ok [5, 0, 0, 0, 0, 0, 0, 0] ∧
      nvIsZero [5, 0, 0, 0, 0, 0, 0, 0] = false ∧
      nodeValue8FromBigInt (some (((⟨5, 7⟩ : Account).Nonce : Nat) : Int)) =
        .ok [7, 0, 0, 0, 0, 0, 0, 0] ∧
      nvIsZero [7, 0, 0, 0, 0, 0, 0, 0] = false) ∧
    SetStorage env0 ctxAfterOne "p" ((1, some ⟨5, 7⟩) :: (2, none) :: []) [] []
        MemDb.new =
      (.error (ctxDoneMsg "p"),
        { MemDb.new with DbKeySource :=
            (alInsert (env0.keyNonce 1) (encodeKeySource KEY_NONCE 1 0)
              (alInsert (env0.keyBalance 1) (encodeKeySource KEY_BALANCE 1 0)
                MemDb.new.DbKeySource)) },
        [.insKS (env0.keyBalance 1) (encodeKeySource KEY_BALANCE 1 0),
          .insKS (env0.keyNonce 1) (encodeKeySource KEY_NONCE 1 0)]) :=
  ⟨⟨rfl, by decide, rfl, by decide⟩,
    setStorage_cancel_retains_writes env0 "p" MemDb.new 1 ⟨5, 7⟩
      [5, 0, 0, 0, 0, 0, 0, 0] [7, 0, 0, 0, 0, 0, 0, 0] rfl (by decide) rfl
      (by decide) (2, none) []⟩

/-! ## C9: the hash-key map round trip -/

theorem setBytesBE_cons_zero (t : Bytes) : setBytesBE (0 :: t) = setBytesBE t := by
  unfold setBytesBE
  simp

theorem setBytesBE_replicate_append (z : Nat) (t : Bytes) :
    setBytesBE (List.replicate z 0 ++ t) = setBytesBE t := by
  induction z with
  | zero => simp
  | succ z ih =>
    rw [List.replicate_succ, List.cons_append, setBytesBE_cons_zero, ih]

theorem setBytesBE_foldl (ds : List Nat) (acc : Nat) :
    List.foldl (fun a b => a * 256 + b) acc ds.reverse =
      acc * 256 ^ ds.length + Nat.ofDigits 256 ds := by
  induction ds generalizing acc with
  | nil => simp [Nat.ofDigits]
  | cons d t ih =>
    rw [List.reverse_cons, List.foldl_append, ih]
    simp only [List.foldl_cons, List.foldl_nil, List.length_cons,
      Nat.ofDigits_cons]
    ring

theorem setBytesBE_reverse_digits (x : Nat) :
    setBytesBE (Nat.digits 256 x).reverse = x := by
  unfold setBytesBE
  rw [setBytesBE_foldl, Nat.ofDigits_digits]
  simp

theorem scalarToArray_arrayToScalar (a b c d : Nat) (ha : a < 2 ^ 64)
    (hb : b < 2 ^ 64) (hc : c < 2 ^ 64) (hd : d < 2 ^ 64) :
    scalarToArray (arrayToScalar [a, b, c, d]) = [a, b, c, d] := by
  unfold scalarToArray arrayToScalar
  simp only [List.foldr_cons, List.foldr_nil, List.cons.injEq, and_true]
  omega

/-- C9: the byte serialisation written by `InsertHashKey` and the parse
performed by `GetHashKey` (`big.Int.SetBytes` followed by
`ScalarToArray`) invert each other for all four 64-bit limbs: after
`InsertHashKey(h, k)`, `GetHashKey(h)` returns exactly `k`. -/
theorem insertHashKey_getHashKey_roundtrip (s : MemDb) (h k : NodeKey)
    (hk0 : k.1 < 2 ^ 64) (hk1 : k.2.1 < 2 ^ 64) (hk2 : k.2.2.1 < 2 ^ 64)
    (hk3 : k.2.2.2 < 2 ^ 64) :
    (s.insertHashKey h k).getHashKey h = .ok k := by
  obtain ⟨a, b, c, d⟩ := k
  unfold MemDb.insertHashKey MemDb.getHashKey
  dsimp only
  rw [alLookup_insert]
  have hsb : setBytesBE (ArrayToBytes [a, b, c, d]) =
      arrayToScalar [a, b, c, d] := by
    unfold ArrayToBytes
    dsimp only
    rw [setBytesBE_replicate_append, setBytesBE_reverse_digits]
  dsimp only
  rw [hsb, scalarToArray_arrayToScalar a b c d hk0 hk1 hk2 hk3]
  rfl

/-- Closed instance of C9 at a concrete key. -/
theorem insertHashKey_getHashKey_roundtrip_witness :
    ((5 : Nat) < 2 ^ 64 ∧ (6 : Nat) < 2 ^ 64 ∧ (7 : Nat) < 2 ^ 64 ∧
      (8 : Nat) < 2 ^ 64) ∧
    (MemDb.new.insertHashKey (1, 2, 3, 4) (5, 6, 7, 8)).getHashKey
        (1, 2, 3, 4) = .ok (5, 6, 7, 8) :=
  ⟨⟨by decide, by decide, by decide, by decide⟩,
    insertHashKey_getHashKey_roundtrip MemDb.new (1, 2, 3, 4) (5, 6, 7, 8)
      (by decide) (by decide) (by decide) (by decide)⟩

/-! ## C7: calcHashVal splits the scalar and hashes with BRANCH_CAP -/

theorem nodeValue8FromBigInt_some_eq (x : Int) :
    nodeValue8FromBigInt (some x) = .ok (scalar8 x.toNat) := by
  have hcond : (scalar8 x.toNat).length = 8 ∧
      ((scalar8 x.toNat).all fun e => e < goldilocksP) = true := by
    constructor
    · simp [scalar8]
    · rw [List.all_eq_true]
      intro e he
      rw [decide_eq_true_eq]
      have hlt : ∀ y : Nat, y % 2 ^ 32 < goldilocksP := by
        intro y
        have := Nat.mod_lt y (show 0 < 2 ^ 32 by norm_num)
        unfold goldilocksP
        omega
      simp only [scalar8, List.mem_cons, List.not_mem_nil, or_false] at he
      rcases he with h | h | h | h | h | h | h | h <;> rw [h] <;> exact hlt _
  unfold nodeValue8FromBigInt nodeValue8FromBigIntArray scalarToArrayBig
  dsimp only
  rw [if_pos hcond]

/-- C7: for every value string that parses to a 256-bit scalar `x`,
`calcHashVal` returns the 8-limb (eight 32-bit lane) decomposition of
`x` together with the hash of those limbs under the `BranchCapacity`
domain tag — the branch capacity, not the leaf capacity. -/
theorem calcHashVal_spec (H : HashFn) (v : String) (x : Int)
    (hp : convertStringToBigInt v = some x) (h0 : 0 ≤ x)
    (hlt : x < 2 ^ 256) :
    calcHashVal H v = .ok (scalar8 x.toNat, H (scalar8 x.toNat) BranchCapacity) ∧
    lanesToScalar (scalar8 x.toNat) = x.toNat ∧
    BranchCapacity ≠ LeafCapacity := by
  refine ⟨?_, ?_, by decide⟩
  · unfold calcHashVal
    rw [hp, nodeValue8FromBigInt_some_eq]
  · have hxn : x.toNat < 2 ^ 256 := by omega
    unfold lanesToScalar scalar8
    simp only [List.foldr_cons, List.foldr_nil]
    omega

/-- Closed instance of C7: the string `0x2a` parses to 42 and hashes its
lanes with the branch capacity. -/
theorem calcHashVal_spec_witness :
    (convertStringToBigInt "0x2a" = some 42 ∧ (0 : Int) ≤ 42 ∧
      (42 : Int) < 2 ^ 256) ∧
    calcHashVal (fun _ _ => [0, 0, 0, 0]) "0x2a" =
        .ok (scalar8 (42 : Int).toNat,
          (fun (_ _ : List Nat) => [0, 0, 0, 0]) (scalar8 (42 : Int).toNat)
            BranchCapacity) ∧
    lanesToScalar (scalar8 (42 : Int).toNat) = (42 : Int).toNat ∧
    BranchCapacity ≠ LeafCapacity :=
  ⟨⟨rfl, by decide, by decide⟩,
    calcHashVal_spec (fun _ _ => [0, 0, 0, 0]) "0x2a" 42 rfl (by decide)
      (by decide)⟩

/-! ## C2: the per-CPU buffers never under-allocate -/

/-- The index sequence visited by the worker loop
`for j := cpuI; j < n; j += c`, with a fuel bound mirroring
`workerCollect`. -/
def strideIdx (n c : Nat) : Nat → Nat → List Nat
  | 0, _ => []
  | fuel + 1, j => if j < n then j :: strideIdx n c fuel (j + c) else []

/-- A concrete hash parameter used for closed evaluations. -/
def hash0 : HashFn := fun _ _ => [0, 0, 0, 0]

theorem workerCollect_length_le_strideIdx (H : HashFn)
    (storage : List (String × String)) (keys : List String) (n c : Nat) :
    ∀ (fuel j : Nat) (ts : List HashTriple),
      workerCollect H storage keys n c fuel j = .ok ts →
      ts.length ≤ (strideIdx n c fuel j).length := by
  intro fuel
  induction fuel with
  | zero =>
    intro j ts h
    cases h
    exact Nat.le_refl 0
  | succ fuel ih =>
    intro j ts h
    rw [workerCollect] at h
    rw [strideIdx]
    by_cases hj : j < n
    · rw [if_pos hj] at h
      rw [if_pos hj]
      dsimp only at h ⊢
      by_cases hv : strLookup storage (keys.getD j "") = ""
      · rw [if_pos hv] at h
        exact Nat.le_succ_of_le (ih (j + c) ts h)
      · rw [if_neg hv] at h
        cases hch : calcHashVal H (strLookup storage (keys.getD j "")) with
        | error e =>
          rw [hch] at h
          exact absurd h (by simp)
        | ok ch =>
          rw [hch] at h
          dsimp only at h
          cases hrec : workerCollect H storage keys n c fuel (j + c) with
          | error e =>
            rw [hrec] at h
            exact absurd h (by simp)
          | ok ts2 =>
            rw [hrec] at h
            dsimp only at h
            cases h
            simpa using ih (j + c) ts2 hrec
    · rw [if_neg hj] at h
      rw [if_neg hj]
      cases h
      exact Nat.le_refl 0

theorem strideIdx_mem_le (n c : Nat) :
    ∀ (fuel j x : Nat), x ∈ strideIdx n c fuel j →
      j ≤ x ∧ x < n ∧ (x - j) % c = 0 := by
  intro fuel
  induction fuel with
  | zero =>
    intro j x hx
    exact absurd hx (by simp [strideIdx])
  | succ fuel ih =>
    intro j x hx
    rw [strideIdx] at hx
    by_cases hj : j < n
    · rw [if_pos hj] at hx
      rcases List.mem_cons.mp hx with rfl | hx
      · exact ⟨Nat.le_refl x, hj, by simp⟩
      · obtain ⟨h1, h2, h3⟩ := ih (j + c) x hx
        refine ⟨by omega, h2, ?_⟩
        have hsub : x - j - c = x - (j + c) := by omega
        have hge : c ≤ x - j := by omega
        rw [Nat.mod_eq_sub_mod hge, hsub]
        exact h3
    · rw [if_neg hj] at hx
      exact absurd hx (by simp)

theorem strideIdx_nodup (n c : Nat) (hc : 0 < c) :
    ∀ (fuel j : Nat), (strideIdx n c fuel j).Nodup := by
  intro fuel
  induction fuel with
  | zero => intro j; simp [strideIdx]
  | succ fuel ih =>
    intro j
    rw [strideIdx]
    by_cases hj : j < n
    · rw [if_pos hj]
      refine List.Nodup.cons ?_ (ih (j + c))
      intro hmem
      have := (strideIdx_mem_le n c fuel (j + c) j hmem).1
      omega
    · rw [if_neg hj]
      exact List.nodup_nil

theorem stride_filter_card_le (n c j : Nat) (hc : 0 < c) :
    ((Finset.range n).filter
      (fun x => j ≤ x ∧ (x - j) % c = 0)).card ≤ n / c + n % c := by
  classical
  have hcard : ((Finset.range n).filter
      (fun x => j ≤ x ∧ (x - j) % c = 0)).card ≤
      (Finset.range (n / c + n % c)).card := by
    apply Finset.card_le_card_of_injOn (fun x => (x - j) / c)
    · intro x hx
      simp only [Finset.mem_filter, Finset.mem_range] at hx
      obtain ⟨hxn, hjx, hmod⟩ := hx
      simp only [Finset.mem_range]
      have hdvd : c ∣ (x - j) := Nat.dvd_of_mod_eq_zero hmod
      have htc : (x - j) / c * c = x - j := Nat.div_mul_cancel hdvd
      have hqr := Nat.div_add_mod n c
      by_contra hcon
      have hge : n / c + n % c ≤ (x - j) / c := Nat.le_of_not_lt hcon
      have h2 : (n / c + n % c) * c ≤ (x - j) / c * c :=
        Nat.mul_le_mul_right c hge
      have h3 : (n / c + n % c) * c = n / c * c + n % c * c := Nat.add_mul _ _ _
      have h4 : n % c ≤ n % c * c := Nat.le_mul_of_pos_right _ hc
      have h5 : c * (n / c) = n / c * c := Nat.mul_comm _ _
      omega
    · intro x hx y hy heq
      simp only [Finset.coe_filter, Set.mem_setOf_eq, Finset.mem_range]
        at hx hy
      obtain ⟨hxn, hjx, hmodx⟩ := hx
      obtain ⟨hyn, hjy, hmody⟩ := hy
      have htx : (x - j) / c * c = x - j :=
        Nat.div_mul_cancel (Nat.dvd_of_mod_eq_zero hmodx)
      have hty : (y - j) / c * c = y - j :=
        Nat.div_mul_cancel (Nat.dvd_of_mod_eq_zero hmody)
      have hbeta : (x - j) / c = (y - j) / c := heq
      have : (x - j) / c * c = (y - j) / c * c := by rw [hbeta]
      omega
  calc ((Finset.range n).filter (fun x => j ≤ x ∧ (x - j) % c = 0)).card
      ≤ (Finset.range (n / c + n % c)).card := hcard
    _ = n / c + n % c := Finset.card_range _

theorem strideIdx_length_le (n c : Nat) (hc : 0 < c) (fuel j : Nat) :
    (strideIdx n c fuel j).length ≤ n / c + n % c := by
  classical
  have hnd := strideIdx_nodup n c hc fuel j
  have hsub : (strideIdx n c fuel j).toFinset ⊆
      (Finset.range n).filter (fun x => j ≤ x ∧ (x - j) % c = 0) := by
    intro x hx
    rw [List.mem_toFinset] at hx
    obtain ⟨h1, h2, h3⟩ := strideIdx_mem_le n c fuel j x hx
    simp only [Finset.mem_filter, Finset.mem_range]
    exact ⟨h2, h1, h3⟩
  calc (strideIdx n c fuel j).length
      = (strideIdx n c fuel j).toFinset.card := (List.toFinset_card_of_nodup hnd).symm
    _ ≤ ((Finset.range n).filter (fun x => j ≤ x ∧ (x - j) % c = 0)).card :=
        Finset.card_le_card hsub
    _ ≤ n / c + n % c := stride_filter_card_le n c j hc

/-- The buffer-sufficiency bound shared by the C2 statements: a worker
writes at most `operationsPerCpu` entries. -/
theorem workerCollect_length_le (H : HashFn)
    (storage : List (String × String)) (keys : List String) (n c i : Nat)
    (ts : List HashTriple) (hc : 0 < c)
    (h : workerCollect H storage keys n c n i = .ok ts) :
    ts.length ≤ operationsPerCpu n c :=
  Nat.le_trans (workerCollect_length_le_strideIdx H storage keys n c n i ts h)
    (strideIdx_length_le n c hc n i)

/-- C2 counterexample (refutation): the claimed out-of-bounds write is
impossible — there is no storage size, worker count and worker index for
which the number of entries the worker writes exceeds the buffer size
`storageKeyCount/cpuNum + storageKeyCount%cpuNum`. -/
theorem worker_buffer_overflow_impossible :
    ¬ ∃ (H : HashFn) (storage : List (String × String)) (keys : List String)
      (n c i : Nat) (ts : List HashTriple),
      0 < c ∧ workerCollect H storage keys n c n i = .ok ts ∧
      operationsPerCpu n c < ts.length := by
  rintro ⟨H, storage, keys, n, c, i, ts, hc, hw, hlt⟩
  have := workerCollect_length_le H storage keys n c i ts hc hw
  omega

/-- C2 amended: the per-CPU buffers sized
`storageKeyCount/cpuNum + storageKeyCount%cpuNum` never under-allocate:
every worker writes at most that many entries, so every buffer write
`keyArray[cpuI][count]` is in bounds (`floor(n/c) + n%c >= ceil(n/c)`
for every `n` and every `c > 0`). -/
theorem worker_buffer_never_overflows (H : HashFn)
    (storage : List (String × String)) (keys : List String) (n c i : Nat)
    (ts : List HashTriple) (hc : 0 < c)
    (h : workerCollect H storage keys n c n i = .ok ts) :
    ts.length ≤ operationsPerCpu n c :=
  workerCollect_length_le H storage keys n c i ts hc h

/-- Closed instance of C2 amended: a concrete worker run stays within
its buffer. -/
theorem worker_buffer_never_overflows_witness :
    ((0 : Nat) < 2 ∧ workerCollect hash0 [("a", "1")] ["a"] 1 2 1 0 =
      .ok [("a", [1, 0, 0, 0, 0, 0, 0, 0], [0, 0, 0, 0])]) ∧
    ([("a", ([1, 0, 0, 0, 0, 0, 0, 0], [0, 0, 0, 0]))] :
      List HashTriple).length ≤ operationsPerCpu 1 2 :=
  ⟨⟨by decide, rfl⟩,
    worker_buffer_never_overflows hash0 [("a", "1")] ["a"] 1 2 0
      [("a", [1, 0, 0, 0, 0, 0, 0, 0], [0, 0, 0, 0])] (by decide) rfl⟩

/-! ## C3: the parallel and sequential table builds agree -/

/-- Successful-result projection for `Except`. -/
def exOk? {ε α : Type} : Except ε α → Option α
  | .ok a => some a
  | .error _ => none

/-- The triple contributed by one storage slot key: skipped when the
value is empty, otherwise the key with its `calcHashVal` result. -/
def keyTriple (H : HashFn) (storage : List (String × String)) (k : String) :
    Option HashTriple :=
  if strLookup storage k = "" then none
  else (exOk? (calcHashVal H (strLookup storage k))).map (fun ch => (k, ch))

theorem alLookup_of_mem {β : Type} {storage : List (String × β)} {k : String}
    {v : β} (hnd : (storage.map Prod.fst).Nodup) (hm : (k, v) ∈ storage) :
    alLookup k storage = some v := by
  induction storage with
  | nil => exact absurd hm (by simp)
  | cons p rest ih =>
    obtain ⟨a, b⟩ := p
    rcases List.mem_cons.mp hm with heq | hm2
    · injection heq with h1 h2
      subst h1
      subst h2
      show (if k = k then some v else alLookup k rest) = some v
      rw [if_pos rfl]
    · have hak : a ≠ k := by
        intro hak
        subst hak
        have : a ∈ rest.map Prod.fst := List.mem_map_of_mem Prod.fst hm2
        simp only [List.map_cons, List.nodup_cons] at hnd
        exact hnd.1 this
      show (if a = k then some b else alLookup k rest) = some v
      rw [if_neg hak]
      exact ih (by simpa using hnd.of_cons) hm2

theorem strLookup_of_mem {storage : List (String × String)} {k v : String}
    (hnd : (storage.map Prod.fst).Nodup) (hm : (k, v) ∈ storage) :
    strLookup storage k = v := by
  unfold strLookup
  rw [alLookup_of_mem hnd hm]
  rfl

/-- The per-key success hypothesis, derived for every key of the map. -/
theorem keys_calc_ok {H : HashFn} {storage : List (String × String)}
    (hnd : (storage.map Prod.fst).Nodup)
    (hok : ∀ p ∈ storage, p.2 ≠ "" → ∃ r, calcHashVal H p.2 = .ok r) :
    ∀ k ∈ storage.map Prod.fst, strLookup storage k ≠ "" →
      ∃ r, calcHashVal H (strLookup storage k) = .ok r := by
  intro k hk hv
  obtain ⟨p, hp, hpk⟩ := List.mem_map.mp hk
  obtain ⟨k0, v0⟩ := p
  dsimp only at hpk
  subst hpk
  rw [strLookup_of_mem hnd hp] at hv ⊢
  exact hok (k0, v0) hp hv

theorem seqCollect_eq_filterMap (H : HashFn)
    (storage : List (String × String)) :
    ∀ ks : List String,
      (∀ k ∈ ks, strLookup storage k ≠ "" →
        ∃ r, calcHashVal H (strLookup storage k) = .ok r) →
      seqCollect H storage ks = .ok (ks.filterMap (keyTriple H storage)) := by
  intro ks
  induction ks with
  | nil => intro _; rfl
  | cons k rest ih =>
    intro hyp
    rw [seqCollect]
    by_cases hv : strLookup storage k = ""
    · rw [if_pos hv, List.filterMap_cons]
      rw [show keyTriple H storage k = none by unfold keyTriple; rw [if_pos hv]]
      exact ih (fun k2 hk2 => hyp k2 (List.mem_cons_of_mem k hk2))
    · rw [if_neg hv]
      obtain ⟨r, hr⟩ := hyp k (List.mem_cons_self k rest) hv
      rw [hr]
      dsimp only
      rw [ih (fun k2 hk2 => hyp k2 (List.mem_cons_of_mem k hk2))]
      dsimp only
      rw [List.filterMap_cons]
      rw [show keyTriple H storage k = some (k, r) by
        unfold keyTriple
        rw [if_neg hv, hr]
        rfl]

theorem getD_range_map (l : List String) :
    (List.range l.length).map (fun i => l.getD i "") = l := by
  induction l with
  | nil => rfl
  | cons a t ih =>
    rw [List.length_cons, List.range_succ_eq_map, List.map_cons, List.map_map]
    congr 1

theorem workerCollect_eq_filterMap (H : HashFn)
    (storage : List (String × String)) (keys : List String) (n c : Nat)
    (hkeys : ∀ k ∈ keys, strLookup storage k ≠ "" →
      ∃ r, calcHashVal H (strLookup storage k) = .ok r)
    (hn : n ≤ keys.length) :
    ∀ (fuel j : Nat),
      workerCollect H storage keys n c fuel j =
        .ok ((strideIdx n c fuel j).filterMap
          (fun i => keyTriple H storage (keys.getD i ""))) := by
  intro fuel
  induction fuel with
  | zero => intro j; rfl
  | succ fuel ih =>
    intro j
    rw [workerCollect, strideIdx]
    by_cases hj : j < n
    · rw [if_pos hj, if_pos hj]
      dsimp only
      have hmem : keys.getD j "" ∈ keys := by
        have hjl : j < keys.length := Nat.lt_of_lt_of_le hj hn
        rw [List.getD_eq_getElem _ _ hjl]
        exact List.getElem_mem hjl
      by_cases hv : strLookup storage (keys.getD j "") = ""
      · rw [if_pos hv, List.filterMap_cons]
        rw [show keyTriple H storage (keys.getD j "") = none by
          unfold keyTriple; rw [if_pos hv]]
        exact ih (j + c)
      · rw [if_neg hv]
        obtain ⟨r, hr⟩ := hkeys (keys.getD j "") hmem hv
        rw [hr]
        dsimp only
        rw [ih (j + c)]
        dsimp only
        rw [List.filterMap_cons]
        rw [show keyTriple H storage (keys.getD j "") =
            some (keys.getD j "", r) by
          unfold keyTriple
          rw [if_neg hv, hr]
          rfl]
    · rw [if_neg hj, if_neg hj]
      rfl

theorem mergeBuffer_eq_filter (w : List HashTriple) (size : Nat) :
    mergeBuffer w size = w.filter (fun t => t.1 ≠ "") := by
  unfold mergeBuffer
  rw [List.filter_append]
  have hrep : (List.replicate (size - w.length)
      (("", [], []) : HashTriple)).filter (fun t => t.1 ≠ "") = [] := by
    induction size - w.length with
    | zero => rfl
    | succ m ihm =>
      rw [List.replicate_succ, List.filter_cons]
      simp only [ne_eq, not_true_eq_false, decide_False, if_false]
      exact ihm
  rw [hrep, List.append_nil]

theorem filter_ne_empty_of_all {w : List HashTriple}
    (h : ∀ t ∈ w, t.1 ≠ "") : w.filter (fun t => t.1 ≠ "") = w := by
  induction w with
  | nil => rfl
  | cons t rest ih =>
    rw [List.filter_cons]
    have ht : t.1 ≠ "" := h t (List.mem_cons_self t rest)
    simp only [ne_eq, ht, not_false_eq_true, decide_True, if_true]
    rw [ih (fun u hu => h u (List.mem_cons_of_mem t hu))]

/-- The concatenation of the index sequences of the given workers. -/
def parIdx (n c : Nat) : List Nat → List Nat
  | [] => []
  | i :: is => strideIdx n c n i ++ parIdx n c is

theorem parWorkers_eq_filterMap (H : HashFn)
    (storage : List (String × String)) (keys : List String) (n c : Nat)
    (hkeys : ∀ k ∈ keys, strLookup storage k ≠ "" →
      ∃ r, calcHashVal H (strLookup storage k) = .ok r)
    (hne : ∀ k ∈ keys, k ≠ "")
    (hn : n ≤ keys.length) :
    ∀ is : List Nat,
      parWorkers H storage keys n c is =
        .ok ((parIdx n c is).filterMap
          (fun i => keyTriple H storage (keys.getD i ""))) := by
  intro is
  induction is with
  | nil => rfl
  | cons i is ih =>
    rw [parWorkers]
    rw [workerCollect_eq_filterMap H storage keys n c hkeys hn n i]
    dsimp only
    rw [ih]
    dsimp only
    rw [parIdx]
    rw [List.filterMap_append]
    congr 1
    rw [mergeBuffer_eq_filter]
    congr 1
    apply filter_ne_empty_of_all
    intro t ht
    obtain ⟨idx, hidx, hkt⟩ := List.mem_filterMap.mp ht
    have hidxn : idx < n := (strideIdx_mem_le n c n i idx hidx).2.1
    have hmem : keys.getD idx "" ∈ keys := by
      have hjl : idx < keys.length := Nat.lt_of_lt_of_le hidxn hn
      rw [List.getD_eq_getElem _ _ hjl]
      exact List.getElem_mem hjl
    unfold keyTriple at hkt
    by_cases hv : strLookup storage (keys.getD idx "") = ""
    · rw [if_pos hv] at hkt
      exact absurd hkt (by simp)
    · rw [if_neg hv] at hkt
      cases hex : exOk? (calcHashVal H (strLookup storage (keys.getD idx ""))) with
      | none => rw [hex] at hkt; exact absurd hkt (by simp)
      | some ch =>
        rw [hex] at hkt
        simp only [Option.map_some', Option.some.injEq] at hkt
        rw [← hkt]
        exact hne (keys.getD idx "") hmem

theorem keyTriple_fst {H : HashFn} {storage : List (String × String)}
    {k : String} {t : HashTriple} (h : keyTriple H storage k = some t) :
    t.1 = k := by
  unfold keyTriple at h
  by_cases hv : strLookup storage k = ""
  · rw [if_pos hv] at h
    exact absurd h (by simp)
  · rw [if_neg hv] at h
    cases hex : exOk? (calcHashVal H (strLookup storage k)) with
    | none => rw [hex] at h; exact absurd h (by simp)
    | some ch =>
      rw [hex] at h
      simp only [Option.map_some', Option.some.injEq] at h
      rw [← h]

theorem strideIdx_mem_iff (n c : Nat) (hc : 0 < c) :
    ∀ (fuel j x : Nat), n ≤ fuel + j →
      (x ∈ strideIdx n c fuel j ↔ j ≤ x ∧ x < n ∧ (x - j) % c = 0) := by
  intro fuel
  induction fuel with
  | zero =>
    intro j x hfuel
    constructor
    · intro hx
      exact absurd hx (by simp [strideIdx])
    · intro h
      omega
  | succ fuel ih =>
    intro j x hfuel
    constructor
    · exact strideIdx_mem_le n c (fuel + 1) j x
    · rintro ⟨h1, h2, h3⟩
      rw [strideIdx]
      have hj : j < n := Nat.lt_of_le_of_lt h1 h2
      rw [if_pos hj]
      by_cases hxj : x = j
      · rw [hxj]
        exact List.mem_cons_self j _
      · refine List.mem_cons_of_mem j ?_
        have hgt : j < x := Nat.lt_of_le_of_ne h1 (fun hh => hxj hh.symm)
        have hdvd : c ∣ x - j := Nat.dvd_of_mod_eq_zero h3
        have hcle : c ≤ x - j := Nat.le_of_dvd (by omega) hdvd
        rw [ih (j + c) x (by omega)]
        refine ⟨by omega, h2, ?_⟩
        have hsub : x - (j + c) = x - j - c := by omega
        rw [hsub, ← Nat.mod_eq_sub_mod hcle]
        exact h3

theorem parIdx_mem (n c : Nat) :
    ∀ (is : List Nat) (x : Nat),
      x ∈ parIdx n c is ↔ ∃ i ∈ is, x ∈ strideIdx n c n i := by
  intro is
  induction is with
  | nil => intro x; simp [parIdx]
  | cons i is ih =>
    intro x
    rw [parIdx, List.mem_append, ih]
    constructor
    · rintro (h | ⟨i2, hi2, hx⟩)
      · exact ⟨i, List.mem_cons_self i is, h⟩
      · exact ⟨i2, List.mem_cons_of_mem i hi2, hx⟩
    · rintro ⟨i2, hi2, hx⟩
      rcases List.mem_cons.mp hi2 with rfl | hi2
      · exact Or.inl hx
      · exact Or.inr ⟨i2, hi2, hx⟩

theorem parIdx_range_mem (n c : Nat) (hc : 0 < c) (x : Nat) :
    x ∈ parIdx n c (List.range c) ↔ x < n := by
  rw [parIdx_mem]
  constructor
  · rintro ⟨i, _, hx⟩
    exact (strideIdx_mem_le n c n i x hx).2.1
  · intro hx
    refine ⟨x % c, List.mem_range.mpr (Nat.mod_lt x hc), ?_⟩
    rw [strideIdx_mem_iff n c hc n (x % c) x (by omega)]
    refine ⟨Nat.mod_le x c, hx, ?_⟩
    have hdm := Nat.div_add_mod x c
    have hsub : x - x % c = c * (x / c) := by omega
    rw [hsub]
    exact Nat.mul_mod_right c (x / c)

theorem strideIdx_mem_mod {n c fuel i x : Nat} (hic : i < c)
    (hx : x ∈ strideIdx n c fuel i) : x % c = i := by
  obtain ⟨h1, _, h3⟩ := strideIdx_mem_le n c fuel i x hx
  obtain ⟨m, hm⟩ := Nat.dvd_of_mod_eq_zero h3
  have hxe : x = i + c * m := by omega
  rw [hxe, Nat.add_mul_mod_self_left]
  exact Nat.mod_eq_of_lt hic

theorem parIdx_nodup (n c : Nat) (hc : 0 < c) :
    ∀ is : List Nat, is.Nodup → (∀ i ∈ is, i < c) →
      (parIdx n c is).Nodup := by
  intro is
  induction is with
  | nil => intro _ _; exact List.nodup_nil
  | cons i is ih =>
    intro hnd hlt
    rw [parIdx, List.nodup_append]
    refine ⟨strideIdx_nodup n c hc n i,
      ih (List.nodup_cons.mp hnd).2 (fun i2 h2 => hlt i2 (List.mem_cons_of_mem i h2)), ?_⟩
    intro x hx1 hx2
    obtain ⟨i2, hi2, hx2s⟩ := (parIdx_mem n c is x).mp hx2
    have e1 : x % c = i := strideIdx_mem_mod (hlt i (List.mem_cons_self i is)) hx1
    have e2 : x % c = i2 :=
      strideIdx_mem_mod (hlt i2 (List.mem_cons_of_mem i hi2)) hx2s
    have : i ∈ is := by rw [← e1.symm.trans e2] at hi2; exact hi2
    exact (List.nodup_cons.mp hnd).1 this

theorem mapfst_filterMap_sublist {α : Type} (f : α → Option HashTriple)
    (proj : α → String) (hf : ∀ a t, f a = some t → t.1 = proj a) :
    ∀ l : List α, ((l.filterMap f).map Prod.fst).Sublist (l.map proj) := by
  intro l
  induction l with
  | nil => exact List.Sublist.refl []
  | cons a l ih =>
    rw [List.filterMap_cons, List.map_cons]
    cases hfa : f a with
    | none => exact ih.cons (proj a)
    | some t =>
      rw [List.map_cons, hf a t hfa]
      exact ih.cons₂ (proj a)

theorem nodup_map_getD (keys : List String) (hnd : keys.Nodup)
    (idxs : List Nat) (hidx : idxs.Nodup)
    (hlt : ∀ i ∈ idxs, i < keys.length) :
    (idxs.map (fun i => keys.getD i "")).Nodup := by
  refine List.Nodup.map_on ?_ hidx
  intro i hi j hj heq
  have hi2 := hlt i hi
  have hj2 := hlt j hj
  rw [List.getD_eq_getElem _ _ hi2, List.getD_eq_getElem _ _ hj2] at heq
  exact List.Nodup.getElem_inj_iff hnd |>.mp heq

theorem alLookup_foldl_insert {β : Type} (f : HashTriple → β) :
    ∀ (l : List HashTriple) (m : List (String × β)) (k : String),
      (l.map Prod.fst).Nodup →
      alLookup k (l.foldl (fun acc t => alInsert t.1 (f t) acc) m) =
        ((l.find? (fun t => t.1 = k)).map (fun t => some (f t))).getD
          (alLookup k m) := by
  intro l
  induction l with
  | nil => intro m k _; rfl
  | cons t rest ih =>
    intro m k hnd
    rw [List.foldl_cons]
    rw [ih (alInsert t.1 (f t) m) k (by
      simp only [List.map_cons, List.nodup_cons] at hnd
      exact hnd.2)]
    by_cases htk : t.1 = k
    · have hfind : rest.find? (fun t => t.1 = k) = none := by
        rw [List.find?_eq_none]
        intro u hu
        simp only [decide_eq_true_eq]
        intro huk
        simp only [List.map_cons, List.nodup_cons] at hnd
        have : t.1 ∈ rest.map Prod.fst := by
          rw [htk, ← huk]
          exact List.mem_map_of_mem Prod.fst hu
        exact hnd.1 this
      rw [hfind]
      rw [List.find?_cons_of_pos _ (by simp [htk])]
      simp only [Option.map_some', Option.getD_some, Option.map_none',
        Option.getD_none]
      rw [← htk, alLookup_insert]
    · rw [List.find?_cons_of_neg _ (by simp [htk])]
      cases hfind : rest.find? (fun t => t.1 = k) with
      | some u => simp
      | none =>
        simp only [Option.map_none', Option.getD_none]
        exact alLookup_insert_ne (f t) m htk

theorem triple_key_unique {l : List HashTriple}
    (hnd : (l.map Prod.fst).Nodup) {a b : HashTriple} (ha : a ∈ l)
    (hb : b ∈ l) (hab : a.1 = b.1) : a = b :=
  List.inj_on_of_nodup_map hnd ha hb hab

theorem find?_key_eq {l1 l2 : List HashTriple}
    (h1 : (l1.map Prod.fst).Nodup) (h2 : (l2.map Prod.fst).Nodup)
    (hm : ∀ t, t ∈ l1 ↔ t ∈ l2) (k : String) :
    l1.find? (fun t => t.1 = k) = l2.find? (fun t => t.1 = k) := by
  cases hf1 : l1.find? (fun t => t.1 = k) with
  | none =>
    rw [List.find?_eq_none] at hf1
    symm
    rw [List.find?_eq_none]
    intro u hu
    exact hf1 u ((hm u).mpr hu)
  | some t =>
    have htl1 : t ∈ l1 := List.mem_of_find?_eq_some hf1
    have htk : t.1 = k := by
      have := List.find?_some hf1
      simpa using this
    cases hf2 : l2.find? (fun t => t.1 = k) with
    | none =>
      rw [List.find?_eq_none] at hf2
      exact absurd (by simpa using htk) (by simpa using hf2 t ((hm t).mp htl1))
    | some u =>
      have hul2 : u ∈ l2 := List.mem_of_find?_eq_some hf2
      have huk : u.1 = k := by
        have := List.find?_some hf2
        simpa using this
      exact congrArg some
        (triple_key_unique h1 htl1 ((hm u).mpr hul2) (htk.trans huk.symm))

theorem filterMap_eq_range (f : String → Option HashTriple)
    (l : List String) :
    l.filterMap f =
      (List.range l.length).filterMap (fun i => f (l.getD i "")) := by
  conv_lhs => rw [← getD_range_map l]
  rw [List.filterMap_map]
  rfl

theorem alLookup_chmOf (l : List HashTriple) (k : String)
    (hnd : (l.map Prod.fst).Nodup) :
    alLookup k (chmOf l) =
      ((l.find? (fun t => t.1 = k)).map (fun t => some t.2.1)).getD none :=
  alLookup_foldl_insert (fun t => t.2.1) l [] k hnd

theorem alLookup_vhmOf (l : List HashTriple) (k : String)
    (hnd : (l.map Prod.fst).Nodup) :
    alLookup k (vhmOf l) =
      ((l.find? (fun t => t.1 = k)).map (fun t => some t.2.2)).getD none :=
  alLookup_foldl_insert (fun t => t.2.2) l [] k hnd

/-- C3 amended: provided no slot is the empty string (the buffer
sentinel) and every non-empty value hashes successfully, the parallel
branch of `SetContractStorage` (any positive worker count) and the
sequential branch build the same two maps: the slot-to-8-limb-value map
`chm` and the slot-to-value-hash map `vhm` agree on every slot,
independent of the worker partitioning. -/
theorem setContractStorage_parallel_matches_sequential (H : HashFn)
    (storage : List (String × String)) (c : Nat) (hc : 0 < c)
    (hnd : (storage.map Prod.fst).Nodup)
    (hne : ∀ p ∈ storage, p.1 ≠ "")
    (hok : ∀ p ∈ storage, p.2 ≠ "" → ∃ r, calcHashVal H p.2 = .ok r) :
    ∃ tp ts,
      parWorkers H storage (storage.map Prod.fst)
        (storage.map Prod.fst).length c (List.range c) = .ok tp ∧
      seqCollect H storage (storage.map Prod.fst) = .ok ts ∧
      (∀ k, alLookup k (chmOf tp) = alLookup k (chmOf ts)) ∧
      (∀ k, alLookup k (vhmOf tp) = alLookup k (vhmOf ts)) := by
  have hkeys := keys_calc_ok hnd hok
  have hne2 : ∀ k ∈ storage.map Prod.fst, k ≠ "" := by
    intro k hk
    obtain ⟨p, hp, hpk⟩ := List.mem_map.mp hk
    exact hpk ▸ hne p hp
  refine ⟨(parIdx (storage.map Prod.fst).length c (List.range c)).filterMap
      (fun i => keyTriple H storage ((storage.map Prod.fst).getD i "")),
    (storage.map Prod.fst).filterMap (keyTriple H storage),
    parWorkers_eq_filterMap H storage (storage.map Prod.fst)
      (storage.map Prod.fst).length c hkeys hne2 (Nat.le_refl _)
      (List.range c),
    seqCollect_eq_filterMap H storage (storage.map Prod.fst) hkeys, ?_, ?_⟩
  all_goals
    intro k
    rw [filterMap_eq_range (keyTriple H storage) (storage.map Prod.fst)]
    have hkeysnd : (storage.map Prod.fst).Nodup := hnd
    have hparlt : ∀ i ∈ parIdx (storage.map Prod.fst).length c (List.range c),
        i < (storage.map Prod.fst).length := by
      intro i hi
      exact (parIdx_range_mem (storage.map Prod.fst).length c hc i).mp hi
    have hndpar : (((parIdx (storage.map Prod.fst).length c
        (List.range c)).filterMap (fun i => keyTriple H storage
          ((storage.map Prod.fst).getD i ""))).map Prod.fst).Nodup := by
      refine List.Nodup.sublist
        (mapfst_filterMap_sublist _ (fun i => (storage.map Prod.fst).getD i "")
          (fun a t ht => keyTriple_fst ht) _) ?_
      exact nodup_map_getD (storage.map Prod.fst) hkeysnd _
        (parIdx_nodup (storage.map Prod.fst).length c hc (List.range c)
          (List.nodup_range c) (fun i hi => List.mem_range.mp hi))
        hparlt
    have hndseq : (((List.range (storage.map Prod.fst).length).filterMap
        (fun i => keyTriple H storage
          ((storage.map Prod.fst).getD i ""))).map Prod.fst).Nodup := by
      refine List.Nodup.sublist
        (mapfst_filterMap_sublist _ (fun i => (storage.map Prod.fst).getD i "")
          (fun a t ht => keyTriple_fst ht) _) ?_
      exact nodup_map_getD (storage.map Prod.fst) hkeysnd _
        (List.nodup_range _) (fun i hi => List.mem_range.mp hi)
    have hmem : ∀ t,
        t ∈ (parIdx (storage.map Prod.fst).length c
          (List.range c)).filterMap (fun i => keyTriple H storage
            ((storage.map Prod.fst).getD i "")) ↔
        t ∈ (List.range (storage.map Prod.fst).length).filterMap
          (fun i => keyTriple H storage
            ((storage.map Prod.fst).getD i "")) := by
      intro t
      rw [List.mem_filterMap, List.mem_filterMap]
      constructor
      · rintro ⟨i, hi, hg⟩
        exact ⟨i, List.mem_range.mpr
          ((parIdx_range_mem _ c hc i).mp hi), hg⟩
      · rintro ⟨i, hi, hg⟩
        exact ⟨i, (parIdx_range_mem _ c hc i).mpr (List.mem_range.mp hi), hg⟩
    first
    | rw [alLookup_chmOf _ k hndpar, alLookup_chmOf _ k hndseq,
        find?_key_eq hndpar hndseq hmem k]
    | rw [alLookup_vhmOf _ k hndpar, alLookup_vhmOf _ k hndseq,
        find?_key_eq hndpar hndseq hmem k]

/-- The 101-entry storage map of the C3 counterexample: slot `""` (the
empty string is a legal Go map key) with value `"1"`, plus 100 distinct
single-character slots. -/
def cexStorage : List (String × String) :=
  ("", "1") :: (List.range 100).map
    (fun i => (String.mk [Char.ofNat (65 + i)], "1"))

/-- C3 counterexample: on a 101-entry storage map containing the
empty-string slot with a non-empty value, the parallel branch (taken
because the map exceeds 100 entries; one worker here) drops that slot —
its key collides with the buffer sentinel skipped by the merge loop —
while the sequential computation keeps it: the two maps differ at slot
`""`. -/
theorem setContractStorage_parallel_cex :
    (setContractStorageTriples hash0 1 cexStorage).map
        (fun tp => alLookup "" (chmOf tp)) = .ok none ∧
    (seqCollect hash0 cexStorage (cexStorage.map Prod.fst)).map
        (fun ts => alLookup "" (chmOf ts)) =
      .ok (some [1, 0, 0, 0, 0, 0, 0, 0]) ∧
    100 < cexStorage.length :=
  ⟨rfl, rfl, by decide⟩

/-- Closed instance of C3 amended: a two-slot map (one empty value)
split across two workers matches the sequential build. -/
theorem setContractStorage_parallel_matches_sequential_witness :
    ((0 : Nat) < 2 ∧
      (([("a", "1"), ("b", "")] : List (String × String)).map
        Prod.fst).Nodup ∧
      (∀ p ∈ ([("a", "1"), ("b", "")] : List (String × String)), p.1 ≠ "") ∧
      (∀ p ∈ ([("a", "1"), ("b", "")] : List (String × String)), p.2 ≠ "" →
        ∃ r, calcHashVal hash0 p.2 = .ok r)) ∧
    ∃ tp ts,
      parWorkers hash0 [("a", "1"), ("b", "")]
        (([("a", "1"), ("b", "")] : List (String × String)).map Prod.fst)
        (([("a", "1"), ("b", "")] : List (String × String)).map
          Prod.fst).length 2 (List.range 2) = .ok tp ∧
      seqCollect hash0 [("a", "1"), ("b", "")]
        (([("a", "1"), ("b", "")] : List (String × String)).map Prod.fst) =
        .ok ts ∧
      (∀ k, alLookup k (chmOf tp) = alLookup k (chmOf ts)) ∧
      (∀ k, alLookup k (vhmOf tp) = alLookup k (vhmOf ts)) := by
  have hok : ∀ p ∈ ([("a", "1"), ("b", "")] : List (String × String)),
      p.2 ≠ "" → ∃ r, calcHashVal hash0 p.2 = .ok r := by
    intro p hp hpv
    rcases List.mem_cons.mp hp with rfl | hp2
    · exact ⟨([1, 0, 0, 0, 0, 0, 0, 0], [0, 0, 0, 0]), rfl⟩
    · rcases List.mem_cons.mp hp2 with rfl | hp3
      · exact absurd rfl hpv
      · exact absurd hp3 (List.not_mem_nil p)
  exact ⟨⟨by decide, by decide, by decide, hok⟩,
    setContractStorage_parallel_matches_sequential hash0
      [("a", "1"), ("b", "")] 2 (by decide) (by decide) (by decide) hok⟩
